import Mathlib

/-!
Verification of the kubeve event-pipeline core (table rendering, aggregation,
word wrapping, fuzzy matching, command palette, and the watch-generation
state machine of the TUI controller).

Strings are modelled as lists of runes (`Str := List Char`); on the ASCII
fragment exercised by this code byte lengths and rune lengths coincide, so
`List.length` models Go `len` faithfully for the inputs of interest.
Go `time.Time` values are modelled as an integer count of nanoseconds since
0001-01-01T00:00:00 UTC, whose zero value coincides with Go's zero `Time`.
-/

namespace Kubeve

abbrev Str := List Char

/-- Go `unicode.IsSpace` restricted to the ASCII white-space characters. -/
def isSpace (c : Char) : Bool :=
  c = ' ' ∨ c = '\t' ∨ c = '\n' ∨ c = '\x0b' ∨ c = '\x0c' ∨ c = '\r'

/-- Go `strings.TrimSpace`. -/
def trimSpace (s : Str) : Str :=
  ((s.dropWhile isSpace).reverse.dropWhile isSpace).reverse

/-- Accumulator-passing worker for `fields`; `acc` is the current word reversed. -/
def fieldsAux : Str → Str → List Str
  | [], acc => if acc = [] then [] else [acc.reverse]
  | c :: rest, acc =>
    if isSpace c then
      if acc = [] then fieldsAux rest [] else acc.reverse :: fieldsAux rest []
    else fieldsAux rest (c :: acc)

/-- Go `strings.Fields`: split around runs of white space. -/
def fields (s : Str) : List Str := fieldsAux s []

/-- Split off everything before the first occurrence of `sep`, if any. -/
def splitFirst (sep : Char) : Str → Option (Str × Str)
  | [] => none
  | c :: rest =>
    if c = sep then some ([], rest)
    else (splitFirst sep rest).map (fun p => (c :: p.1, p.2))

/-- Go `strings.SplitN(s, sep, n)` for a single-rune separator (the code only
splits on the rune `'│'`): at most `n` parts, the last part unsplit. -/
def splitN (sep : Char) : Nat → Str → List Str
  | 0, _ => []
  | 1, s => [s]
  | n + 2, s =>
    match splitFirst sep s with
    | none => [s]
    | some (a, b) => a :: splitN sep (n + 1) b

/-- Go `strings.Index(s, pat)`: position of the first occurrence of `pat`. -/
def strIndex (pat : Str) : Str → Option Nat
  | [] => if pat = [] then some 0 else none
  | c :: rest =>
    if pat.isPrefixOf (c :: rest) then some 0
    else (strIndex pat rest).map (fun n => n + 1)

/-- Go `strings.Contains(line, sub)`. -/
def containsStr (s sub : Str) : Bool := (strIndex sub s).isSome

/-- ASCII lower-casing of one rune (Go `strings.ToLower` on the ASCII fragment). -/
def lowerChar (c : Char) : Char :=
  if 'A' ≤ c ∧ c ≤ 'Z' then Char.ofNat (c.toNat + 32) else c

/-- Go `strings.ToLower` on the ASCII fragment. -/
def lowerStr (s : Str) : Str := s.map lowerChar

/-- Go `fmt` padding directive `%-ns`: left-justify, pad with spaces to width n. -/
def padRight (n : Nat) (s : Str) : Str := s ++ List.replicate (n - s.length) ' '

/-- Left-pad with a given character to width n (used for zero-padded numerals). -/
def padZero (n : Nat) (s : Str) : Str := List.replicate (n - s.length) '0' ++ s

/-- Decimal rendering of a natural number (Go `strconv.Itoa` on naturals). -/
def natToStr (n : Nat) : Str := Nat.toDigits 10 n

/-- Go `strings.Join(parts, sep)`. -/
def joinStr (sep : Str) : List Str → Str
  | [] => []
  | [x] => x
  | x :: y :: rest => x ++ sep ++ joinStr sep (y :: rest)

/-- Go byte-wise `<` on strings; on rune lists UTF-8 byte order and code-point
order agree, so this is lexicographic order on the rune lists. -/
def strLt : Str → Str → Bool
  | [], [] => false
  | [], _ :: _ => true
  | _ :: _, [] => false
  | a :: as, b :: bs => if a < b then true else if b < a then false else strLt as bs

theorem strLt_irrefl : ∀ s : Str, strLt s s = false := by
  intro s
  induction s with
  | nil => rfl
  | cons a as ih => simp [strLt, ih]

theorem strLt_asymm : ∀ a b : Str, strLt a b = true → strLt b a = false := by
  intro a
  induction a with
  | nil => intro b h; cases b with
    | nil => simp [strLt] at h
    | cons c cs => simp [strLt]
  | cons c cs ih =>
    intro b h
    cases b with
    | nil => simp [strLt] at h
    | cons d ds =>
      simp only [strLt] at h ⊢
      rcases lt_trichotomy c d with hcd | hcd | hcd
      · simp [hcd, not_lt_of_gt hcd]
      · subst hcd
        simp only [lt_irrefl, if_false] at h ⊢
        exact ih ds h
      · simp [hcd, not_lt_of_gt hcd] at h

theorem strLt_trans : ∀ a b c : Str, strLt a b = true → strLt b c = true → strLt a c = true := by
  intro a
  induction a with
  | nil =>
    intro b c hab hbc
    cases b with
    | nil => simp [strLt] at hab
    | cons d ds =>
      cases c with
      | nil => simp [strLt] at hbc
      | cons e es => simp [strLt]
  | cons x xs ih =>
    intro b c hab hbc
    cases b with
    | nil => simp [strLt] at hab
    | cons d ds =>
      cases c with
      | nil => simp [strLt] at hbc
      | cons e es =>
        simp only [strLt] at hab hbc ⊢
        rcases lt_trichotomy x d with h1 | h1 | h1
        · rcases lt_trichotomy d e with h2 | h2 | h2
          · simp [lt_trans h1 h2]
          · subst h2; simp [h1]
          · simp [h2, not_lt_of_gt h2] at hbc
        · subst h1
          rcases lt_trichotomy x e with h2 | h2 | h2
          · simp [h2]
          · subst h2
            simp only [lt_irrefl, if_false] at hab hbc ⊢
            exact ih _ _ hab hbc
          · simp [h2, not_lt_of_gt h2] at hbc
        · simp [h1, not_lt_of_gt h1] at hab

theorem strLt_connected : ∀ a b : Str, a ≠ b → strLt a b = true ∨ strLt b a = true := by
  intro a
  induction a with
  | nil => intro b h; cases b with
    | nil => exact absurd rfl h
    | cons c cs => left; rfl
  | cons x xs ih =>
    intro b h
    cases b with
    | nil => right; rfl
    | cons d ds =>
      rcases lt_trichotomy x d with h1 | h1 | h1
      · left; simp [strLt, h1]
      · subst h1
        have hne : xs ≠ ds := by intro he; exact h (by rw [he])
        rcases ih ds hne with h2 | h2
        · left; simp [strLt, h2]
        · right; simp [strLt, h2]
      · right; simp [strLt, h1, not_lt_of_gt h1]

/-! ## Go `time` model

A `time.Time` is modelled by nanoseconds since 0001-01-01T00:00:00 UTC, so
Go's zero `Time` is the integer 0, `IsZero` is `= 0`, `After` is `>` and
`Equal` is `=`.  `parseRFC3339` models `time.Parse(time.RFC3339, s)` for the
format actually produced and consumed by this program
(`YYYY-MM-DDThh:mm:ss`, optional fractional seconds, then `Z` or `±hh:mm`),
including calendar validation; failure is `none` and the caller substitutes
the zero time, exactly as the Go code does on a parse error. -/

def digitVal (c : Char) : Option Nat :=
  if '0' ≤ c ∧ c ≤ '9' then some (c.toNat - 48) else none

def parse2 (a b : Char) : Option Nat := do
  let x ← digitVal a
  let y ← digitVal b
  pure (10 * x + y)

def parse4 (a b c d : Char) : Option Nat := do
  let x ← parse2 a b
  let y ← parse2 c d
  pure (100 * x + y)

def isLeap (y : Int) : Bool :=
  (y.emod 4 = 0 ∧ y.emod 100 ≠ 0) ∨ y.emod 400 = 0

def daysInMonth (y : Int) (m : Nat) : Nat :=
  if m = 2 then (if isLeap y then 29 else 28)
  else if m = 4 ∨ m = 6 ∨ m = 9 ∨ m = 11 then 30
  else 31

/-- Days in years 1..y-1 (day 0 of the model calendar is 0001-01-01). -/
def daysBeforeYear (y : Int) : Int :=
  365 * (y - 1) + (y - 1).ediv 4 - (y - 1).ediv 100 + (y - 1).ediv 400

/-- Days in the months of year `y` strictly before month `m`. -/
def daysBeforeMonth (y : Int) (m : Nat) : Nat :=
  ((List.range (m - 1)).map (fun i => daysInMonth y (i + 1))).sum

def dateToDays (y : Int) (m d : Nat) : Int :=
  daysBeforeYear y + daysBeforeMonth y m + (d - 1 : Nat)

/-- Parse an optional fractional-seconds suffix, returning nanoseconds and the
remainder of the input. -/
def parseFrac : Str → Option (Nat × Str)
  | '.' :: rest =>
    let ds := rest.takeWhile (fun c => (digitVal c).isSome)
    if ds.length = 0 ∨ 9 < ds.length then none
    else
      let v := ds.foldl (fun acc c => 10 * acc + ((digitVal c).getD 0)) 0
      some (v * 10 ^ (9 - ds.length), rest.drop ds.length)
  | rest => some (0, rest)

/-- Parse the zone suffix, returning the offset east of UTC in seconds. -/
def parseZone : Str → Option Int
  | ['Z'] => some 0
  | c :: h1 :: h2 :: ':' :: m1 :: m2 :: [] => do
    let sign : Int ← if c = '+' then some 1 else if c = '-' then some (-1) else none
    let h ← parse2 h1 h2
    let m ← parse2 m1 m2
    if h ≤ 23 ∧ m ≤ 59 then some (sign * (3600 * h + 60 * m)) else none
  | _ => none

def parseRFC3339 : Str → Option Int
  | y1 :: y2 :: y3 :: y4 :: '-' :: mo1 :: mo2 :: '-' :: d1 :: d2 :: 'T' ::
      h1 :: h2 :: ':' :: mi1 :: mi2 :: ':' :: s1 :: s2 :: rest => do
    let y ← parse4 y1 y2 y3 y4
    let mo ← parse2 mo1 mo2
    let d ← parse2 d1 d2
    let h ← parse2 h1 h2
    let mi ← parse2 mi1 mi2
    let se ← parse2 s1 s2
    if 1 ≤ mo ∧ mo ≤ 12 ∧ 1 ≤ d ∧ d ≤ daysInMonth y mo ∧ h ≤ 23 ∧ mi ≤ 59 ∧ se ≤ 59 then
      let (frac, rest2) ← parseFrac rest
      let off ← parseZone rest2
      some ((dateToDays y mo d * 86400 + h * 3600 + mi * 60 + se - off) * 1000000000 + frac)
    else none
  | _ => none

/-- Civil date from a day count (day 0 = 0001-01-01); standard era-based
conversion, used only to render instants back to text. -/
def civilFromDays (z : Int) : Int × Nat × Nat :=
  let z2 := z - 719162 + 719468
  let era := z2.ediv 146097
  let doe := (z2.emod 146097).toNat
  let yoe := (doe - doe / 1460 + doe / 36524 - doe / 146096) / 365
  let y : Int := yoe + era * 400
  let doy := doe - (365 * yoe + yoe / 4 - yoe / 100)
  let mp := (5 * doy + 2) / 153
  let d := doy - (153 * mp + 2) / 5 + 1
  let m := if mp < 10 then mp + 3 else mp - 9
  (if m ≤ 2 then y + 1 else y, m, d)

/-- Go `t.Format(time.RFC3339)` for an instant in UTC (the layout carries no
fractional seconds, and all times this program formats are in UTC). -/
def formatRFC3339 (t : Int) : Str :=
  let sec := t.ediv 1000000000
  let days := sec.ediv 86400
  let sod := (sec.emod 86400).toNat
  let (y, m, d) := civilFromDays days
  padZero 4 (natToStr y.toNat) ++ '-' :: padZero 2 (natToStr m) ++ '-' :: padZero 2 (natToStr d) ++
    'T' :: padZero 2 (natToStr (sod / 3600)) ++ ':' :: padZero 2 (natToStr (sod % 3600 / 60)) ++
    ':' :: padZero 2 (natToStr (sod % 60)) ++ ['Z']

/-! ## `ui/table.go` (current revision): columns, layout, wrapping, aggregation -/

/-- Go `ColumnOptions` (field `ns` models Go `Namespace`, a Lean keyword). -/
structure ColumnOptions where
  timestamp : Bool
  ns : Bool
  status : Bool
  action : Bool
  resource : Bool
  aggregate : Bool

/-- Go `matchesFilter`: substring containment of the filter text. -/
def matchesFilter (line filterText : Str) : Bool := containsStr line filterText

/-- Go `filterEvents`. -/
def filterEvents (events : List Str) (filterText : Str) : List Str :=
  events.filter (fun line => matchesFilter line filterText)

/-- Go `messageColumnWidth`. -/
def messageColumnWidth (tableWidth : Int) (opts : ColumnOptions) : Int :=
  if tableWidth ≤ 0 then 80
  else
    let columns : Int := 1
    let expansionTotal : Int := 5
    let columns := if opts.timestamp then columns + 1 else columns
    let expansionTotal := if opts.timestamp then expansionTotal + 1 else expansionTotal
    let columns := if opts.ns then columns + 1 else columns
    let expansionTotal := if opts.ns then expansionTotal + 1 else expansionTotal
    let columns := if opts.status then columns + 1 else columns
    let expansionTotal := if opts.status then expansionTotal + 1 else expansionTotal
    let columns := if opts.action then columns + 1 else columns
    let expansionTotal := if opts.action then expansionTotal + 1 else expansionTotal
    let columns := if opts.resource then columns + 1 else columns
    let expansionTotal := if opts.resource then expansionTotal + 2 else expansionTotal
    let separatorWidth := (columns - 1) * 3
    let usable := tableWidth - separatorWidth
    if usable < 20 then 20
    else
      let width := usable * 5 / expansionTotal
      if width < 20 then 20 else width

/-- The inner `for len(word) > width` loop of Go `wrapLine`: emit `width`-sized
pieces of an over-long word as whole lines; the caller requires `0 < w`. -/
def splitLong (w : Nat) (lines : List Str) (word : Str) : List Str × Str :=
  if h : 0 < w ∧ w < word.length then
    splitLong w (lines ++ [word.take w]) (word.drop w)
  else (lines, word)
termination_by word.length
decreasing_by
  simp only [List.length_drop]
  omega

/-- `flush` of Go `wrapLine`. -/
def flushLine (lines : List Str) (current : Str) : List Str :=
  if current = [] then lines else lines ++ [current]

/-- One iteration of the word loop of Go `wrapLine`. -/
def wrapStep (w : Nat) (st : List Str × Str) (word : Str) : List Str × Str :=
  let (lines, current) := st
  if w < word.length then
    splitLong w (flushLine lines current) word
  else if current = [] then (lines, word)
  else if current.length + 1 + word.length ≤ w then (lines, current ++ ' ' :: word)
  else (lines ++ [current], word)

/-- Go `wrapLine`. -/
def wrapLine (text : Str) (width : Int) : List Str :=
  if width ≤ 0 ∨ (text.length : Int) ≤ width then [text]
  else
    let words := fields text
    if words = [] then [[]]
    else
      let st := words.foldl (wrapStep width.toNat) ([], [])
      let lines := flushLine st.1 st.2
      if lines = [] then [[]] else lines

theorem splitFirst_snd_length_lt (sep : Char) :
    ∀ s a b, splitFirst sep s = some (a, b) → b.length < s.length := by
  intro s
  induction s with
  | nil => intro a b h; simp [splitFirst] at h
  | cons c rest ih =>
    intro a b h
    simp only [splitFirst] at h
    by_cases hc : c = sep
    · rw [if_pos hc] at h
      cases h
      simp
    · rw [if_neg hc, Option.map_eq_some'] at h
      obtain ⟨⟨a2, b2⟩, hp, he⟩ := h
      have hlt := ih a2 b2 hp
      have hb : b = b2 := by
        have := congrArg Prod.snd he
        simpa using this.symm
      subst hb
      simp only [List.length_cons]
      omega

/-- Go `strings.Split(s, sep)` for a single-rune separator (unbounded). -/
def splitAllOn (sep : Char) (s : Str) : List Str :=
  match h : splitFirst sep s with
  | none => [s]
  | some (a, b) => a :: splitAllOn sep b
termination_by s.length
decreasing_by
  exact splitFirst_snd_length_lt sep s a b h

/-- Go `wrapMessage`: split on newlines, trim each paragraph, keep blank
paragraphs as empty lines, and wrap the rest. -/
def wrapMessage (text : Str) (width : Int) : List Str :=
  if width ≤ 0 then [text]
  else
    let paragraphs := splitAllOn '\n' text
    let lines := paragraphs.flatMap (fun paragraph =>
      let trimmed := trimSpace paragraph
      if trimmed = [] then [[]] else wrapLine trimmed width)
    if lines = [] then [[]] else lines

/-! ## Aggregation (`aggregateEvents` of `ui/table.go`, current revision)

The Go code keys a `map[string]*aggregatedEvent` by the concatenated string
`namespace + "|" + resource + "|" + reason` and finally sorts the collected
groups with `sort.Slice`.  The map is modelled by an association list in
first-insertion order; since the final comparator is total on the produced
groups (proved below), the sorted output does not depend on the unspecified
Go map iteration order. -/

/-- Go `aggregatedEvent` (field `ns` models Go `namespace`). -/
structure AggGroup where
  ns : Str
  resource : Str
  reason : Str
  lastMessage : Str
  lastSeen : Int
  lastType : Str
  count : Nat

deriving instance DecidableEq for AggGroup

/-- The per-line data extracted at the top of the aggregation loop; `t` is the
parsed `lastSeen` timestamp with the zero time substituted on parse failure. -/
structure Contrib where
  ns : Str
  resource : Str
  ty : Str
  reason : Str
  msg : Str
  t : Int

deriving instance DecidableEq for Contrib

/-- Field extraction and timestamp parse for one event line; `none` when the
line does not split into exactly 6 `'│'`-separated parts. -/
def contribOf (line : Str) : Option Contrib :=
  let parts := splitN '│' 6 line
  if parts.length = 6 then
    some
      { ns := trimSpace (parts.getD 4 [])
        resource := trimSpace (parts.getD 1 [])
        ty := trimSpace (parts.getD 2 [])
        reason := trimSpace (parts.getD 3 [])
        msg := trimSpace (parts.getD 5 [])
        t := (parseRFC3339 (trimSpace (parts.getD 0 []))).getD 0 }
  else none

/-- The Go map key `namespace + "|" + resource + "|" + reason`. -/
def keyC (c : Contrib) : Str := c.ns ++ '|' :: c.resource ++ '|' :: c.reason

/-- The same key recomputed from a group's stored fields. -/
def keyG (g : AggGroup) : Str := g.ns ++ '|' :: g.resource ++ '|' :: g.reason

/-- The freshly created group before its first `count++` / timestamp update. -/
def newGroup (c : Contrib) : AggGroup :=
  { ns := c.ns, resource := c.resource, reason := c.reason,
    lastMessage := [], lastSeen := 0, lastType := c.ty, count := 0 }

/-- `group.count++` followed by the `IsZero`/`After` update of the Go loop. -/
def bump (g : AggGroup) (c : Contrib) : AggGroup :=
  let g := { g with count := g.count + 1 }
  if g.lastSeen = 0 ∨ g.lastSeen < c.t then
    { g with lastSeen := c.t, lastType := c.ty, lastMessage := c.msg }
  else g

/-- Update the association list at the contribution's key: bump the first
entry with that key, or append a fresh group. -/
def upsert : List (Str × AggGroup) → Contrib → List (Str × AggGroup)
  | [], c => [(keyC c, bump (newGroup c) c)]
  | (k, g) :: rest, c =>
    if k = keyC c then (k, bump g c) :: rest else (k, g) :: upsert rest c

/-- One iteration of the aggregation loop: skip malformed lines. -/
def aggStep (acc : List (Str × AggGroup)) (line : Str) : List (Str × AggGroup) :=
  match contribOf line with
  | none => acc
  | some c => upsert acc c

/-- The fully built group map, in first-insertion order. -/
def aggAssoc (events : List Str) : List (Str × AggGroup) := events.foldl aggStep []

/-- The collected groups before sorting (Go's `summary` slice). -/
def aggregateGroups (events : List Str) : List AggGroup := (aggAssoc events).map Prod.snd

/-- The `sort.Slice` comparator of `aggregateEvents`: descending count, then
descending `lastSeen` (`After`), then ascending namespace, resource, reason. -/
def cmpLt (a b : AggGroup) : Bool :=
  if a.count ≠ b.count then decide (b.count < a.count)
  else if a.lastSeen ≠ b.lastSeen then decide (b.lastSeen < a.lastSeen)
  else if a.ns ≠ b.ns then strLt a.ns b.ns
  else if a.resource ≠ b.resource then strLt a.resource b.resource
  else strLt a.reason b.reason

/-- The non-strict order `sort.Slice` establishes: `a` may precede `b` iff
`b` is not strictly less than `a`. -/
def sortedRel (a b : AggGroup) : Prop := cmpLt b a = false

instance : DecidableRel sortedRel := fun a b => by unfold sortedRel; infer_instance

/-- The sorted summary slice. -/
def aggregateSummary (events : List Str) : List AggGroup :=
  List.insertionSort sortedRel (aggregateGroups events)

/-- The formatted output line for one group (the final `fmt.Sprintf`). -/
def formatGroup (g : AggGroup) : Str :=
  let lastSeenText := if g.lastSeen = 0 then ['-'] else formatRFC3339 g.lastSeen
  padRight 25 lastSeenText ++ ' ' :: '│' :: ' ' :: padRight 60 g.resource ++
    ' ' :: '│' :: ' ' :: padRight 10 (natToStr g.count) ++
    ' ' :: '│' :: ' ' :: padRight 20 g.reason ++
    ' ' :: '│' :: ' ' :: padRight 10 g.ns ++ ' ' :: '│' :: ' ' :: g.lastMessage

/-- Go `aggregateEvents`. -/
def aggregateEvents (events : List Str) : List Str :=
  (aggregateSummary events).map formatGroup

/-! ## Row rendering (`renderRow`, `renderTableContent`, `renderTable`) -/

/-- The status cell text with its colour prefix. -/
def statusCell (statusText : Str) : Str :=
  let statusColor : Str :=
    if statusText = "Warning".toList then "[yellow]".toList else "[white]".toList
  statusColor ++ statusText

/-- The action cell text with its colour prefix. -/
def actionCell (actionText : Str) : Str :=
  let greens := ["Created".toList, "SuccessfulCreate".toList, "Completed".toList]
  let blues := ["Started".toList, "Pulled".toList, "Pulling".toList]
  let reds := ["Killing".toList, "BackOff".toList, "Unhealthy".toList,
    "FailedToRetrieveImagePullSecret".toList]
  let actionColor :=
    if actionText ∈ greens then "[green]".toList
    else if actionText ∈ blues then "[blue]".toList
    else if actionText ∈ reds then "[red]".toList
    else "[white]".toList
  actionColor ++ actionText

/-- Go `renderRow` as the list of cell texts it writes, in column order. -/
def renderRowCells (parts : List Str) (opts : ColumnOptions) : List Str :=
  (if opts.timestamp then [trimSpace (parts.getD 0 [])] else []) ++
  (if opts.ns then [trimSpace (parts.getD 4 [])] else []) ++
  (if opts.status then [statusCell (trimSpace (parts.getD 2 []))] else []) ++
  (if opts.action then [actionCell (trimSpace (parts.getD 3 []))] else []) ++
  (if opts.resource then [trimSpace (parts.getD 1 [])] else []) ++
  [trimSpace (parts.getD 5 [])]

/-- One iteration of the row loop of Go `renderTableContent`, accumulating the
rendered rows and the back-reference table. -/
def renderStep (opts : ColumnOptions) (wrapMessages : Bool) (msgWidth : Int)
    (acc : List (List Str) × List Nat) (p : Nat × Str) : List (List Str) × List Nat :=
  let (rows, rowToEvent) := acc
  let (eventIdx, line) := p
  let parts := splitN '│' 6 line
  if parts.length = 6 then
    if ¬ wrapMessages then
      (rows ++ [renderRowCells parts opts], rowToEvent ++ [eventIdx])
    else
      let wrapped := wrapMessage (trimSpace (parts.getD 5 [])) msgWidth
      let wrapped := if wrapped = [] then [[]] else wrapped
      match wrapped with
      | [] => (rows, rowToEvent)
      | w0 :: wrest =>
        (rows ++ renderRowCells (parts.set 5 w0) opts ::
            wrest.map (fun cont => renderRowCells [[], [], [], [], [], cont] opts),
          rowToEvent ++ List.replicate (1 + wrest.length) eventIdx)
  else (rows, rowToEvent)

/-- Go `renderTableContent` (current revision): the rendered content rows and
the returned `rowToEvent` back-reference table. -/
def renderTableContent (events : List Str) (filterText : Str) (opts : ColumnOptions)
    (wrapMessages : Bool) (tableWidth : Int) : List (List Str) × List Nat :=
  let msgWidth := messageColumnWidth tableWidth opts
  ((filterEvents events filterText).enum).foldl (renderStep opts wrapMessages msgWidth) ([], [])

/-- Go `renderTable`: clear, render the header, render the content. -/
def renderTable (events : List Str) (filterText : Str) (opts : ColumnOptions)
    (wrapMessages : Bool) (tableWidth : Int) : List (List Str) × List Nat :=
  renderTableContent events filterText opts wrapMessages tableWidth

/-! ## Fuzzy matcher and command palette (`command-palette.go`) -/

/-- The per-match base score of the subsequence walk: 8, plus the
word-boundary bonus of 10 when at the start or after a separator. -/
def walkBase (prev : Option Char) (i : Nat) : Int :=
  if i = 0 ∨ prev = some ' ' ∨ prev = some '/' ∨ prev = some '-' ∨ prev = some '_' then 8 + 10
  else 8

/-- The subsequence-walk loop of Go `fuzzyMatchScore`.  `prev` is the rune
preceding the current one in the (lower-cased, trimmed) target — `tr[i-1]` in
the Go code — maintained instead of random access; `lm` is `lastMatch`. -/
def fuzzyWalk (qr : Str) : Str → Option Char → Nat → Nat → Int → Nat → Int → Int × Nat
  | [], _prev, _i, qi, score, _streak, _lm => (score, qi)
  | ch :: rest, prev, i, qi, score, streak, lm =>
    if h : qi < qr.length then
      if ch = qr.get ⟨qi, h⟩ then
        if (i : Int) = lm + 1 then
          fuzzyWalk qr rest (some ch) (i + 1) (qi + 1)
            (score + (walkBase prev i + 4 + (streak + 1 : Nat))) (streak + 1) (i : Int)
        else
          fuzzyWalk qr rest (some ch) (i + 1) (qi + 1) (score + walkBase prev i) 0 (i : Int)
      else fuzzyWalk qr rest (some ch) (i + 1) qi score streak lm
    else (score, qi)

/-- Go `fuzzyMatchScore`. -/
def fuzzyMatchScore (query target : Str) : Int × Bool :=
  let q := lowerStr (trimSpace query)
  let t := lowerStr (trimSpace target)
  if q = [] then (1, true)
  else if t = [] then (0, false)
  else
    match strIndex q t with
    | some idx =>
      let containsScore : Int := 1200 - (idx : Int) * 2 - ((t.length : Int) - (q.length : Int))
      (if containsScore < 1 then 1 else containsScore, true)
    | none =>
      let (score, qi) := fuzzyWalk q t none 0 0 0 0 (-2)
      if qi ≠ q.length then (0, false)
      else
        let score := score - ((t.length : Int) - (q.length : Int))
        (if score < 1 then 1 else score, true)

/-- Go `CommandPaletteCommand` (only the fields read by the result builder). -/
structure PaletteCommand where
  name : Str
  aliases : List Str
  description : Str
  acceptsArg : Bool

deriving instance DecidableEq for PaletteCommand

/-- Go `CommandPaletteJump`. -/
structure PaletteJump where
  label : Str
  detail : Str
  search : Str
  row : Int

deriving instance DecidableEq for PaletteJump

/-- Go `commandPaletteResult`: exactly one of the two owners is set. -/
structure PaletteResult where
  owner : PaletteCommand ⊕ PaletteJump
  score : Int

deriving instance DecidableEq for PaletteResult

/-- The candidate list built by the two loops of `buildCommandPaletteResults`,
before sorting and truncation. -/
def paletteCandidates (query : Str) (commands : List PaletteCommand)
    (jumps : List PaletteJump) : List PaletteResult :=
  let q := trimSpace query
  (commands.filterMap fun command =>
    let matchText := command.name ++ ' ' :: joinStr [' '] command.aliases ++ ' ' :: command.description
    let (score, ok) := fuzzyMatchScore q matchText
    if ok then some { owner := Sum.inl command, score := score + 50 } else none) ++
  (jumps.filterMap fun jump =>
    let search := if jump.search = [] then jump.label ++ ' ' :: jump.detail else jump.search
    let (score, ok) := fuzzyMatchScore q search
    if ok then some { owner := Sum.inr jump, score := score } else none)

/-- The `sort.Slice` comparator of `buildCommandPaletteResults`. -/
def paletteLt (a b : PaletteResult) : Bool :=
  if a.score ≠ b.score then decide (b.score < a.score)
  else
    match a.owner, b.owner with
    | Sum.inl _, Sum.inr _ => true
    | Sum.inr _, Sum.inl _ => false
    | Sum.inl c1, Sum.inl c2 => strLt c1.name c2.name
    | Sum.inr j1, Sum.inr j2 => decide (j2.row < j1.row)

/-- Non-strict order established by the palette sort. -/
def paletteRel (a b : PaletteResult) : Prop := paletteLt b a = false

instance : DecidableRel paletteRel := fun a b => by unfold paletteRel; infer_instance

/-- Go `buildCommandPaletteResults`: build, sort, and truncate to 20 entries
when the query is empty. -/
def buildCommandPaletteResults (query : Str) (commands : List PaletteCommand)
    (jumps : List PaletteJump) : List PaletteResult :=
  let q := trimSpace query
  let results := List.insertionSort paletteRel (paletteCandidates query commands jumps)
  if q = [] ∧ 20 < results.length then results.take 20 else results

/-! ## TUI controller (`ui/tui.go`, current revision)

The single `tview` update loop owns all mutable view state; the watch
goroutine only hands generation-tagged closures to `QueueUpdateDraw`, which
serializes them.  An execution is therefore modelled as a sequence of
actions applied to an explicit state: `setScope` is `updateNamespace`, and
`deliver` / `watchErr` are the two queued closures, tagged with the
generation captured when their goroutine was spawned.  Cursor position and
scrolling are presentation-only and not part of the state. -/

/-- The recent-namespaces update block of `updateNamespace` (lines 143-156):
dedup, move-to-front, cap at 3. -/
def eraseFirst : List Str → Str → List Str
  | [], _ => []
  | x :: xs, v => if x = v then xs else x :: eraseFirst xs v

def recentUpdate (newNS : Str) (recent : List Str) : List Str :=
  if newNS = [] then recent
  else
    let recent := eraseFirst recent newNS
    let recent := newNS :: recent
    if 3 < recent.length then recent.take 3 else recent

/-- The fields of a `corev1.Event` read by the delivery closure. -/
structure KubeEvent where
  involvedKind : Str
  involvedName : Str
  eventType : Str
  reason : Str
  ns : Str
  message : Str
  lastTimestamp : Int

deriving instance DecidableEq for KubeEvent

/-- The mutable state owned by the update loop of `StartUI`. -/
structure TuiState where
  filterText : Str
  allEvents : List Str
  visibleEvents : List Str
  rowToVisibleEvent : List Nat
  recentNamespaces : List Str
  watchGeneration : Nat
  ns : Str
  autoScroll : Bool
  aggregateMode : Bool
  wrapMessages : Bool
  showTimestampColumn : Bool
  showNamespaceColumn : Bool
  showStatusColumn : Bool
  showActionColumn : Bool
  showResourceColumn : Bool
  tableTitle : Str
  tableRows : List (List Str)
  tableWidth : Int
  headerRecentText : Str
  headerInfoText : Str
  clusterName : Str
  k8sVersion : Str
  kubeveVersion : Str

deriving instance DecidableEq for TuiState

/-- Go `currentColumns`. -/
def currentColumns (s : TuiState) : ColumnOptions :=
  { timestamp := s.showTimestampColumn
    ns := s.showNamespaceColumn
    status := s.showStatusColumn
    action := s.showActionColumn
    resource := s.showResourceColumn
    aggregate := s.aggregateMode }

/-- Go `updateTableTitle`. -/
def updateTableTitleState (s : TuiState) : TuiState :=
  let filterTableText :=
    if s.filterText = [] then [] else "[yellow] [Filter: ".toList ++ s.filterText ++ [']']
  let aggregateTableText :=
    if s.aggregateMode then "[cyan]Aggregate".toList else "[gray]Raw".toList
  let wrapTableText :=
    if s.wrapMessages then "[cyan]Wrap".toList else "[gray]No Wrap".toList
  let title :=
    if s.autoScroll then
      "[::b]".toList ++ filterTableText ++ "[green]Autoscroll ✓ ".toList ++
        aggregateTableText ++ ' ' :: wrapTableText
    else
      "[::b]".toList ++ filterTableText ++ "[red]Autoscroll ✗ ".toList ++
        aggregateTableText ++ ' ' :: wrapTableText
  { s with tableTitle := title }

/-- Go `refreshTable`. -/
def refreshTableState (s : TuiState) : TuiState :=
  let displayEvents := if s.aggregateMode then aggregateEvents s.allEvents else s.allEvents
  let visibleEvents := filterEvents displayEvents s.filterText
  let (rows, refs) :=
    renderTable visibleEvents [] (currentColumns s) s.wrapMessages s.tableWidth
  { s with visibleEvents := visibleEvents, tableRows := rows, rowToVisibleEvent := refs }

/-- The message text formatted by the delivery closure (`fmt.Sprintf` with
`%-25s │ %-60s │ %-10s │ %-20s │ %-10s │ %s\n`). -/
def formatEventMsg (event : KubeEvent) : Str :=
  let resource := event.involvedKind ++ '/' :: event.involvedName
  padRight 25 (formatRFC3339 event.lastTimestamp) ++ ' ' :: '│' :: ' ' :: padRight 60 resource ++
    ' ' :: '│' :: ' ' :: padRight 10 event.eventType ++ ' ' :: '│' :: ' ' :: padRight 20 event.reason ++
    ' ' :: '│' :: ' ' :: padRight 10 event.ns ++ ' ' :: '│' :: ' ' :: event.message ++ ['\n']

/-- Go `updateNamespace` (without spawning the watch task, which appears as
separate `deliver`/`watchErr` actions tagged with the generation minted
here): cancel, mint a new generation, update recents and header, clear the
log and the view, refresh. -/
def updateNamespaceState (s : TuiState) (newNS : Str) : TuiState :=
  let watchGeneration := s.watchGeneration + 1
  let ns := if newNS = [] then [] else newNS
  let recentNamespaces := recentUpdate newNS s.recentNamespaces
  let recentLines :=
    "[blue]<0> [white]All Namespaces".toList ::
      (recentNamespaces.enum.map fun p =>
        "[blue]<".toList ++ natToStr (p.1 + 1) ++ "> [white]".toList ++ p.2)
  let namespaceText := if ns = [] then "All namespaces".toList else ns
  let headerInfoText :=
    "[yellow]Cluster:[-] ".toList ++ s.clusterName ++ '\n' ::
      "[yellow]Namespace:[-] ".toList ++ namespaceText ++ '\n' ::
      "[yellow]K8s Rev:[-] ".toList ++ s.k8sVersion ++ '\n' ::
      "[yellow]Kubeve Rev:[-] ".toList ++ s.kubeveVersion ++ ['\n']
  refreshTableState
    { s with
      watchGeneration := watchGeneration
      ns := ns
      recentNamespaces := recentNamespaces
      headerRecentText := joinStr ['\n'] recentLines
      headerInfoText := headerInfoText
      allEvents := []
      visibleEvents := []
      rowToVisibleEvent := []
      showNamespaceColumn := ns = [] }

/-- The event-delivery closure queued by the watch goroutine (lines 186-227),
tagged with the generation captured at spawn time.  A stale or unmatched
generation returns the state unchanged; otherwise the event is appended and
the view updated exactly as in the Go code. -/
def handleDeliver (s : TuiState) (generation : Nat) (event : KubeEvent) : TuiState :=
  if generation ≠ s.watchGeneration then s
  else
    let msg := formatEventMsg event
    if s.autoScroll then
      let s := { s with allEvents := s.allEvents ++ [msg] }
      if s.aggregateMode ∨ s.wrapMessages then refreshTableState s
      else
        if matchesFilter msg s.filterText ∧ (s.ns = [] ∨ event.ns = s.ns) then
          let visibleEvents := s.visibleEvents ++ [msg]
          let parts := splitN '│' 6 msg
          if parts.length = 6 then
            { s with
              visibleEvents := visibleEvents
              tableRows := s.tableRows ++ [renderRowCells parts (currentColumns s)]
              rowToVisibleEvent := s.rowToVisibleEvent ++ [visibleEvents.length - 1] }
          else { s with visibleEvents := visibleEvents }
        else s
    else s

/-- The watch-error closure (lines 230-236), also generation-tagged. -/
def handleWatchError (s : TuiState) (generation : Nat) (errText : Str) : TuiState :=
  if generation ≠ s.watchGeneration then s
  else
    let s := updateTableTitleState s
    { s with tableTitle := s.tableTitle ++ " [red](watch error: ".toList ++ errText ++ [')'] }

/-- One interleaved action against the update loop. -/
inductive Action where
  | setScope (ns : Str)
  | deliver (generation : Nat) (event : KubeEvent)
  | watchErr (generation : Nat) (errText : Str)

/-- Apply one action. -/
def stepAction (s : TuiState) : Action → TuiState
  | Action.setScope ns => updateNamespaceState s ns
  | Action.deliver generation event => handleDeliver s generation event
  | Action.watchErr generation errText => handleWatchError s generation errText

/-- Run a sequence of interleaved actions. -/
def runActions (s : TuiState) (acts : List Action) : TuiState :=
  acts.foldl stepAction s

/-! ## Claim C1: the generation invariant -/

theorem refreshTableState_gen (s : TuiState) :
    (refreshTableState s).watchGeneration = s.watchGeneration := rfl

theorem stepAction_gen_mono (s : TuiState) (a : Action) :
    s.watchGeneration ≤ (stepAction s a).watchGeneration := by
  cases a with
  | setScope ns =>
    show s.watchGeneration ≤ (updateNamespaceState s ns).watchGeneration
    simp only [updateNamespaceState, refreshTableState_gen]
    omega
  | deliver generation event =>
    show s.watchGeneration ≤ (handleDeliver s generation event).watchGeneration
    simp only [handleDeliver]
    split_ifs <;> simp [refreshTableState_gen]
  | watchErr generation errText =>
    show s.watchGeneration ≤ (handleWatchError s generation errText).watchGeneration
    simp only [handleWatchError]
    split_ifs <;> simp [updateTableTitleState]

theorem runActions_gen_mono (s : TuiState) (acts : List Action) :
    s.watchGeneration ≤ (runActions s acts).watchGeneration := by
  induction acts generalizing s with
  | nil => exact le_refl _
  | cons a rest ih =>
    exact le_trans (stepAction_gen_mono s a) (ih (stepAction s a))

/-- Claim C1: once `updateNamespace` has minted generation G+1, a delivery or
watch-error callback tagged with an older generation G leaves the whole
state — event log, visible rows, back-reference table, table title included —
unchanged, and the current generation never decreases along any interleaving
of scope changes and asynchronous callbacks, so a result tagged with an old
generation stays old and is never reflected. -/
theorem generation_invariant (s : TuiState) (g : Nat) (event : KubeEvent) (errText : Str)
    (acts : List Action) (hold : g < s.watchGeneration) :
    handleDeliver s g event = s ∧ handleWatchError s g errText = s ∧
      s.watchGeneration ≤ (runActions s acts).watchGeneration := by
  refine ⟨?_, ?_, runActions_gen_mono s acts⟩
  · unfold handleDeliver
    rw [if_pos (Nat.ne_of_lt hold)]
  · unfold handleWatchError
    rw [if_pos (Nat.ne_of_lt hold)]

/-- A concrete controller state at generation 2 used to witness C1. -/
def exState : TuiState :=
  { filterText := [], allEvents := [], visibleEvents := [], rowToVisibleEvent := []
    recentNamespaces := [], watchGeneration := 2, ns := [], autoScroll := true
    aggregateMode := false, wrapMessages := false, showTimestampColumn := true
    showNamespaceColumn := true, showStatusColumn := true, showActionColumn := true
    showResourceColumn := true, tableTitle := [], tableRows := [], tableWidth := 80
    headerRecentText := [], headerInfoText := [], clusterName := []
    k8sVersion := [], kubeveVersion := [] }

/-- A concrete event used to witness C1. -/
def exEvent : KubeEvent :=
  { involvedKind := "Pod".toList, involvedName := "a".toList, eventType := "Normal".toList
    reason := "Created".toList, ns := "default".toList, message := "m".toList
    lastTimestamp := 0 }

/-- Witness for C1: a delivery of generation 1 against a controller at
generation 2 is discarded, and a further scope change keeps generations
non-decreasing. -/
theorem generation_invariant_witness :
    handleDeliver exState 1 exEvent = exState ∧ handleWatchError exState 1 [] = exState ∧
      exState.watchGeneration ≤ (runActions exState [Action.setScope []]).watchGeneration :=
  generation_invariant exState 1 exEvent [] [Action.setScope []] (by decide)

/-! ## Claim C9: the message-column budget -/

/-- Modelled on the spec's wording: the number of enabled columns. -/
def specColumnCount (opts : ColumnOptions) : Int :=
  1 + (if opts.timestamp then 1 else 0) + (if opts.ns then 1 else 0) +
    (if opts.status then 1 else 0) + (if opts.action then 1 else 0) +
    (if opts.resource then 1 else 0)

/-- Modelled on the spec's wording: the usable width after subtracting the 3
characters of each separator between enabled columns. -/
def specUsable (tableWidth : Int) (opts : ColumnOptions) : Int :=
  tableWidth - 3 * (specColumnCount opts - 1)

/-- Modelled on the spec's weight table: timestamp=1, namespace=1, status=1,
action=1, resource=2, message=5. -/
def specWeightTotal (opts : ColumnOptions) : Int :=
  5 + (if opts.timestamp then 1 else 0) + (if opts.ns then 1 else 0) +
    (if opts.status then 1 else 0) + (if opts.action then 1 else 0) +
    (if opts.resource then 2 else 0)

/-- Claim C9: `messageColumnWidth` never returns less than 20, and whenever
the usable width (table width minus 3 per separator between enabled columns)
is at least 20 the result is the larger of 20 and the message column's
proportional share `usable * 5 / totalWeight` under the spec's weight table. -/
theorem messageColumnWidth_spec (tableWidth : Int) (opts : ColumnOptions) :
    20 ≤ messageColumnWidth tableWidth opts ∧
      (20 ≤ specUsable tableWidth opts →
        messageColumnWidth tableWidth opts =
          max 20 (specUsable tableWidth opts * 5 / specWeightTotal opts)) := by
  obtain ⟨t, n, st, a, r, ag⟩ := opts
  cases t <;> cases n <;> cases st <;> cases a <;> cases r <;>
    · simp only [messageColumnWidth, specUsable, specColumnCount, specWeightTotal,
        Bool.false_eq_true, if_false, if_true]
      constructor
      · split
        · omega
        · split
          · omega
          · split <;> omega
      · intro h
        split
        · omega
        · split
          · omega
          · split <;> omega

/-- Witness for C9 at table width 100 with every column enabled. -/
theorem messageColumnWidth_spec_witness :
    20 ≤ messageColumnWidth 100 ⟨true, true, true, true, true, false⟩ ∧
      messageColumnWidth 100 ⟨true, true, true, true, true, false⟩ =
        max 20 (specUsable 100 ⟨true, true, true, true, true, false⟩ * 5 /
          specWeightTotal ⟨true, true, true, true, true, false⟩) :=
  ⟨(messageColumnWidth_spec 100 ⟨true, true, true, true, true, false⟩).1,
    (messageColumnWidth_spec 100 ⟨true, true, true, true, true, false⟩).2 (by decide)⟩

/-! ## Claim C7: the recent-namespaces list -/

theorem eraseFirst_subset (l : List Str) (v : Str) : ∀ x ∈ eraseFirst l v, x ∈ l := by
  induction l with
  | nil => intro x hx; simp [eraseFirst] at hx
  | cons y ys ih =>
    intro x hx
    simp only [eraseFirst] at hx
    by_cases hy : y = v
    · rw [if_pos hy] at hx
      exact List.mem_cons_of_mem y hx
    · rw [if_neg hy] at hx
      rcases List.mem_cons.mp hx with h | h
      · rw [h]
        exact List.mem_cons_self y ys
      · exact List.mem_cons_of_mem y (ih x h)

theorem eraseFirst_sublist (l : List Str) (v : Str) : (eraseFirst l v).Sublist l := by
  induction l with
  | nil => simp [eraseFirst]
  | cons y ys ih =>
    simp only [eraseFirst]
    by_cases hy : y = v
    · rw [if_pos hy]
      exact List.sublist_cons_self y ys
    · rw [if_neg hy]
      exact List.Sublist.cons₂ y ih

theorem eraseFirst_of_not_mem (l : List Str) (v : Str) (h : v ∉ l) : eraseFirst l v = l := by
  induction l with
  | nil => rfl
  | cons y ys ih =>
    simp only [eraseFirst]
    rw [if_neg (fun he : y = v => h (List.mem_cons.mpr (Or.inl he.symm)))]
    rw [ih (fun hm => h (List.mem_cons_of_mem y hm))]

theorem eraseFirst_perm (l : List Str) (v : Str) (h : v ∈ l) :
    (v :: eraseFirst l v).Perm l := by
  induction l with
  | nil => cases h
  | cons y ys ih =>
    simp only [eraseFirst]
    by_cases hy : y = v
    · rw [if_pos hy, hy]
    · rw [if_neg hy]
      have hv : v ∈ ys := by
        rcases List.mem_cons.mp h with h1 | h1
        · exact absurd h1.symm hy
        · exact h1
      exact (List.Perm.swap y v (eraseFirst ys v)).trans (List.Perm.cons y (ih hv))

theorem eraseFirst_not_mem_of_nodup (l : List Str) (v : Str) (h : l.Nodup) :
    v ∉ eraseFirst l v := by
  induction l with
  | nil => simp [eraseFirst]
  | cons y ys ih =>
    simp only [eraseFirst]
    by_cases hy : y = v
    · rw [if_pos hy]
      have := List.nodup_cons.mp h
      exact hy ▸ this.1
    · rw [if_neg hy]
      intro hmem
      rcases List.mem_cons.mp hmem with h1 | h1
      · exact hy h1.symm
      · exact ih (List.nodup_cons.mp h).2 h1

/-- Claim C7: the recent-namespaces update keeps the list duplicate-free with
at most 3 entries and the selected namespace in front; selecting a namespace
already present permutes the list (moves it to the front, no duplication),
and selecting a new one conses it in front, dropping the oldest entry beyond
the bound of 3. -/
theorem recentUpdate_spec (newNS : Str) (recent : List Str) (hns : newNS ≠ [])
    (hnd : recent.Nodup) (hlen : recent.length ≤ 3) :
    (recentUpdate newNS recent).Nodup ∧
      (recentUpdate newNS recent).length ≤ 3 ∧
      (recentUpdate newNS recent).head? = some newNS ∧
      (newNS ∈ recent → (recentUpdate newNS recent).Perm recent) ∧
      (newNS ∉ recent → recentUpdate newNS recent = (newNS :: recent).take 3) ∧
      (∀ x ∈ recentUpdate newNS recent, x = newNS ∨ x ∈ recent) := by
  simp only [recentUpdate, if_neg hns]
  have hsub := eraseFirst_sublist recent newNS
  have hnd2 : (newNS :: eraseFirst recent newNS).Nodup :=
    List.nodup_cons.mpr ⟨eraseFirst_not_mem_of_nodup recent newNS hnd, hsub.nodup hnd⟩
  have hlen2 : (eraseFirst recent newNS).length ≤ recent.length := hsub.length_le
  by_cases hbig : 3 < (newNS :: eraseFirst recent newNS).length
  · rw [if_pos hbig]
    refine ⟨hnd2.sublist (List.take_sublist _ _), ?_, rfl, ?_, ?_, ?_⟩
    · simp [List.length_take_le 3 (newNS :: eraseFirst recent newNS)]
    · intro hmem
      have hlen3 := (eraseFirst_perm recent newNS hmem).length_eq
      simp only [List.length_cons] at hbig hlen3
      omega
    · intro hnot
      rw [eraseFirst_of_not_mem recent newNS hnot]
    · intro x hx
      rcases List.mem_cons.mp (List.mem_of_mem_take hx) with h | h
      · exact Or.inl h
      · exact Or.inr (eraseFirst_subset recent newNS x h)
  · rw [if_neg hbig]
    simp only [List.length_cons, not_lt] at hbig
    refine ⟨hnd2, by simpa using hbig, rfl, ?_, ?_, ?_⟩
    · intro hmem
      exact eraseFirst_perm recent newNS hmem
    · intro hnot
      rw [eraseFirst_of_not_mem recent newNS hnot] at hbig ⊢
      exact (List.take_of_length_le (by simpa using hbig)).symm
    · intro x hx
      rcases List.mem_cons.mp hx with h | h
      · exact Or.inl h
      · exact Or.inr (eraseFirst_subset recent newNS x h)

/-- Witness for C7: selecting namespace "c" on the full list [a, b, c] moves
it to the front without duplication; all invariants hold. -/
theorem recentUpdate_spec_witness :
    (recentUpdate "c".toList ["a".toList, "b".toList, "c".toList]).Nodup ∧
      (recentUpdate "c".toList ["a".toList, "b".toList, "c".toList]).length ≤ 3 ∧
      (recentUpdate "c".toList ["a".toList, "b".toList, "c".toList]).head? = some "c".toList ∧
      ("c".toList ∈ ["a".toList, "b".toList, "c".toList] →
        (recentUpdate "c".toList ["a".toList, "b".toList, "c".toList]).Perm
          ["a".toList, "b".toList, "c".toList]) ∧
      ("c".toList ∉ ["a".toList, "b".toList, "c".toList] →
        recentUpdate "c".toList ["a".toList, "b".toList, "c".toList] =
          ("c".toList :: ["a".toList, "b".toList, "c".toList]).take 3) ∧
      (∀ x ∈ recentUpdate "c".toList ["a".toList, "b".toList, "c".toList],
        x = "c".toList ∨ x ∈ ["a".toList, "b".toList, "c".toList]) :=
  recentUpdate_spec "c".toList ["a".toList, "b".toList, "c".toList]
    (by decide) (by decide) (by decide)

/-! ## Claim C2: count preservation under aggregation -/

/-- Total of the `count` fields over a list of groups. -/
def sumCounts (groups : List AggGroup) : Nat := (groups.map AggGroup.count).sum

/-- A line is well-formed when it splits into exactly 6 `'│'`-separated parts
(the condition the aggregation loop checks before counting a line). -/
def wellFormedLine (line : Str) : Bool := (splitN '│' 6 line).length == 6

theorem sumCounts_upsert (l : List (Str × AggGroup)) (c : Contrib) :
    sumCounts ((upsert l c).map Prod.snd) = sumCounts (l.map Prod.snd) + 1 := by
  induction l with
  | nil =>
    simp [upsert, sumCounts, bump]
    split <;> simp [newGroup]
  | cons p rest ih =>
    obtain ⟨k, g⟩ := p
    simp only [upsert]
    by_cases hk : k = keyC c
    · rw [if_pos hk]
      simp only [List.map_cons, sumCounts, List.sum_cons, bump]
      split <;> simp <;> omega
    · rw [if_neg hk]
      simp only [List.map_cons, sumCounts, List.sum_cons] at ih ⊢
      omega

theorem contribOf_isSome_iff (line : Str) :
    (contribOf line).isSome = wellFormedLine line := by
  simp only [contribOf, wellFormedLine]
  split
  · simp_all
  · simp_all

theorem sumCounts_aggStep_foldl (events : List Str) :
    ∀ acc : List (Str × AggGroup),
      sumCounts ((events.foldl aggStep acc).map Prod.snd) =
        sumCounts (acc.map Prod.snd) + (events.filter wellFormedLine).length := by
  induction events with
  | nil => intro acc; simp
  | cons line rest ih =>
    intro acc
    simp only [List.foldl_cons, List.filter_cons]
    by_cases hwf : wellFormedLine line
    · rw [if_pos hwf]
      have hsome : (contribOf line).isSome := by rw [contribOf_isSome_iff]; exact hwf
      obtain ⟨c, hc⟩ := Option.isSome_iff_exists.mp hsome
      simp only [aggStep, hc]
      rw [ih (upsert acc c), sumCounts_upsert]
      simp only [List.length_cons]
      omega
    · rw [if_neg hwf]
      have hnone : contribOf line = none := by
        rcases h : contribOf line with _ | c
        · rfl
        · rw [← contribOf_isSome_iff] at hwf
          simp [h] at hwf
      simp only [aggStep, hnone]
      exact ih acc

/-- Counterexample for C2 as stated: the single-line input `["x"]` has length
1, but the line does not split into 6 parts, so it contributes to no group
and the counts sum to 0. -/
theorem aggregate_count_counterexample :
    sumCounts (aggregateGroups ["x".toList]) = 0 ∧ (["x".toList] : List Str).length = 1 ∧
      sumCounts (aggregateGroups ["x".toList]) ≠ (["x".toList] : List Str).length := by
  constructor
  · rfl
  constructor
  · rfl
  · decide

/-- Claim C2 (amended): the counts of the groups produced by `aggregateEvents`
sum to the number of input lines that split into exactly 6 `'│'`-separated
fields; malformed lines are skipped and not counted. -/
theorem aggregate_count_preserved (events : List Str) :
    sumCounts (aggregateGroups events) = (events.filter wellFormedLine).length := by
  have h := sumCounts_aggStep_foldl events []
  simpa [aggregateGroups, aggAssoc, sumCounts] using h

/-! ## Claim C10: empty-query palette behaviour -/

theorem fuzzyMatchScore_empty (query target : Str) (h : trimSpace query = []) :
    fuzzyMatchScore query target = (1, true) := by
  simp [fuzzyMatchScore, h, lowerStr]

theorem paletteCandidates_of_empty (query : Str) (commands : List PaletteCommand)
    (jumps : List PaletteJump) (h : trimSpace query = []) :
    paletteCandidates query commands jumps =
      commands.map (fun c => { owner := Sum.inl c, score := 51 }) ++
        jumps.map (fun j => { owner := Sum.inr j, score := 1 }) := by
  simp only [paletteCandidates]
  congr 1
  · rw [List.filterMap_eq_map_iff_forall_eq_some.mpr]
    intro c _
    rw [h, fuzzyMatchScore_empty [] _ rfl]
    rfl
  · rw [List.filterMap_eq_map_iff_forall_eq_some.mpr]
    intro j _
    rw [h, fuzzyMatchScore_empty [] _ rfl]
    rfl

/-- Claim C10: with an empty (or all-whitespace) palette query every command
and every jump candidate matches, commands at score 1 + the 50 boost and
jumps at the minimal positive fuzzy score 1, and the returned ranked list is
truncated to at most 20 entries; with a non-empty query no truncation
happens: the result is a permutation of the full matching candidate list. -/
theorem buildCommandPaletteResults_spec (query : Str) (commands : List PaletteCommand)
    (jumps : List PaletteJump) :
    (trimSpace query = [] →
      (paletteCandidates query commands jumps).length = commands.length + jumps.length ∧
      (∀ r ∈ paletteCandidates query commands jumps,
        r.score = match r.owner with | Sum.inl _ => 51 | Sum.inr _ => 1) ∧
      (buildCommandPaletteResults query commands jumps).length =
        min (commands.length + jumps.length) 20) ∧
    (trimSpace query ≠ [] →
      (buildCommandPaletteResults query commands jumps).Perm
        (paletteCandidates query commands jumps)) := by
  constructor
  · intro h
    have hform := paletteCandidates_of_empty query commands jumps h
    refine ⟨by simp [hform], ?_, ?_⟩
    · intro r hr
      rw [hform] at hr
      rcases List.mem_append.mp hr with hm | hm <;>
        · obtain ⟨x, _, hx⟩ := List.mem_map.mp hm
          rw [← hx]
    · have hlen : (List.insertionSort paletteRel (paletteCandidates query commands jumps)).length
          = commands.length + jumps.length := by
        rw [(List.perm_insertionSort paletteRel _).length_eq, hform]
        simp
      simp only [buildCommandPaletteResults]
      split
      · rename_i hc
        simp [List.length_take, hlen]
        omega
      · rename_i hc
        rw [hlen]
        rw [not_and, not_lt] at hc
        have := hc h
        omega
  · intro h
    simp only [buildCommandPaletteResults]
    rw [if_neg (fun hc => h hc.1)]
    exact List.perm_insertionSort paletteRel _

/-- A palette command used by the C10 witness. -/
def exCommand : PaletteCommand :=
  { name := "help".toList, aliases := [], description := "show help".toList, acceptsArg := false }

/-- A palette jump used by the C10 witness. -/
def exJump : PaletteJump :=
  { label := "Pod/a".toList, detail := "Created".toList, search := [], row := 1 }

/-- Witness for C10 at an empty query (both loops match, scores 51 and 1, no
truncation needed below 20 results) and at the non-empty query "h" (output is
a permutation of the candidates). -/
theorem buildCommandPaletteResults_spec_witness :
    ((paletteCandidates [] [exCommand] [exJump]).length = 1 + 1 ∧
      (∀ r ∈ paletteCandidates [] [exCommand] [exJump],
        r.score = match r.owner with | Sum.inl _ => 51 | Sum.inr _ => 1) ∧
      (buildCommandPaletteResults [] [exCommand] [exJump]).length = min (1 + 1) 20) ∧
      (buildCommandPaletteResults ['h'] [exCommand] [exJump]).Perm
        (paletteCandidates ['h'] [exCommand] [exJump]) :=
  ⟨by
    have h := (buildCommandPaletteResults_spec [] [exCommand] [exJump]).1 (by decide)
    simpa using h,
   (buildCommandPaletteResults_spec ['h'] [exCommand] [exJump]).2 (by decide)⟩

/-! ## Claim C8: malformed rows are skipped; back-references stay valid -/

/-- Number of rendered rows one (filtered) line contributes: 0 for a
malformed line, 1 unwrapped, and the wrapped line count otherwise. -/
def rowsForLine (wrapMessages : Bool) (msgWidth : Int) (line : Str) : Nat :=
  let parts := splitN '│' 6 line
  if parts.length = 6 then
    if ¬ wrapMessages then 1
    else
      let wrapped := wrapMessage (trimSpace (parts.getD 5 [])) msgWidth
      let wrapped := if wrapped = [] then [[]] else wrapped
      wrapped.length
  else 0

theorem renderStep_characterize (opts : ColumnOptions) (wrapMessages : Bool) (msgWidth : Int)
    (rows : List (List Str)) (refs : List Nat) (i : Nat) (line : Str) :
    (renderStep opts wrapMessages msgWidth (rows, refs) (i, line)).2 =
        refs ++ List.replicate (rowsForLine wrapMessages msgWidth line) i ∧
      (renderStep opts wrapMessages msgWidth (rows, refs) (i, line)).1.length =
        rows.length + rowsForLine wrapMessages msgWidth line := by
  simp only [renderStep, rowsForLine]
  by_cases h6 : (splitN '│' 6 line).length = 6
  · rw [if_pos h6, if_pos h6]
    by_cases hw : wrapMessages
    · simp only [hw, not_true, if_false, Bool.not_true]
      rcases hwr : wrapMessage (trimSpace ((splitN '│' 6 line).getD 5 [])) msgWidth with _ | ⟨w0, wrest⟩ <;>
        simp [List.replicate_succ, Nat.add_comm]
    · simp [hw]
  · rw [if_neg h6, if_neg h6]
    simp

theorem enumFrom_getD (l : List Str) : ∀ (n : Nat) (p : Nat × Str), p ∈ List.enumFrom n l →
    n ≤ p.1 ∧ p.1 - n < l.length ∧ l.getD (p.1 - n) [] = p.2 := by
  induction l with
  | nil => intro n p hp; simp [List.enumFrom] at hp
  | cons x xs ih =>
    intro n p hp
    simp only [List.enumFrom] at hp
    rcases List.mem_cons.mp hp with h | h
    · rw [h]
      simp
    · obtain ⟨h1, h2, h3⟩ := ih (n + 1) p h
      refine ⟨by omega, by simp; omega, ?_⟩
      have : p.1 - n = (p.1 - (n + 1)) + 1 := by omega
      rw [this]
      simpa using h3

theorem renderLoop_characterize (opts : ColumnOptions) (wrapMessages : Bool) (msgWidth : Int) :
    ∀ (l : List (Nat × Str)) (rows : List (List Str)) (refs : List Nat),
      (l.foldl (renderStep opts wrapMessages msgWidth) (rows, refs)).2 =
          refs ++ l.flatMap (fun p => List.replicate (rowsForLine wrapMessages msgWidth p.2) p.1) ∧
        (l.foldl (renderStep opts wrapMessages msgWidth) (rows, refs)).1.length =
          rows.length +
            (l.flatMap (fun p => List.replicate (rowsForLine wrapMessages msgWidth p.2) p.1)).length := by
  intro l
  induction l with
  | nil => intro rows refs; simp
  | cons p rest ih =>
    intro rows refs
    obtain ⟨i, line⟩ := p
    obtain ⟨hsnd, hfst⟩ := renderStep_characterize opts wrapMessages msgWidth rows refs i line
    simp only [List.foldl_cons]
    rcases hst : renderStep opts wrapMessages msgWidth (rows, refs) (i, line) with ⟨rows2, refs2⟩
    rw [hst] at hsnd hfst
    dsimp only at hsnd hfst
    obtain ⟨ih1, ih2⟩ := ih rows2 refs2
    constructor
    · rw [ih1, hsnd]
      simp only [List.flatMap_cons]
      rw [List.append_assoc]
    · rw [ih2, hfst]
      simp only [List.flatMap_cons, List.length_append, List.length_replicate]
      omega

/-- Claim C8: in `renderTableContent` a line that does not split into exactly
6 `'│'`-separated fields contributes no rendered row and no back-reference
entry, well-formed lines contribute one back-reference per rendered row (all
wrap-continuation rows of a line sharing its index), and every index in the
returned back-reference table is a valid index of a well-formed line in the
filtered event list it was derived from. -/
theorem renderTableContent_spec (events : List Str) (filterText : Str) (opts : ColumnOptions)
    (wrapMessages : Bool) (tableWidth : Int) :
    (renderTableContent events filterText opts wrapMessages tableWidth).2 =
        (filterEvents events filterText).enum.flatMap
          (fun p => List.replicate
            (rowsForLine wrapMessages (messageColumnWidth tableWidth opts) p.2) p.1) ∧
      (renderTableContent events filterText opts wrapMessages tableWidth).1.length =
        (renderTableContent events filterText opts wrapMessages tableWidth).2.length ∧
      (renderTableContent events filterText opts wrapMessages tableWidth).2.all
        (fun i => decide (i < (filterEvents events filterText).length) &&
          wellFormedLine ((filterEvents events filterText).getD i [])) = true := by
  obtain ⟨h1, h2⟩ := renderLoop_characterize opts wrapMessages
    (messageColumnWidth tableWidth opts) (filterEvents events filterText).enum [] []
  have h1e : (renderTableContent events filterText opts wrapMessages tableWidth).2 =
      (filterEvents events filterText).enum.flatMap
        (fun p => List.replicate
          (rowsForLine wrapMessages (messageColumnWidth tableWidth opts) p.2) p.1) := by
    rw [renderTableContent, h1]
    simp
  refine ⟨h1e, ?_, ?_⟩
  · rw [renderTableContent] at h1e ⊢
    rw [h2, h1e]
    simp
  · rw [h1e]
    rw [List.all_eq_true]
    intro i hi
    obtain ⟨p, hp, hrep⟩ := List.mem_flatMap.mp hi
    obtain ⟨hn, hzero⟩ := List.mem_replicate.mp hrep
    obtain ⟨_, hlt, hgetD⟩ := enumFrom_getD (filterEvents events filterText) 0 p hp
    simp only [Nat.sub_zero] at hlt hgetD
    have hwf : wellFormedLine p.2 = true := by
      by_contra hcon
      apply hn
      simp only [rowsForLine] at *
      rw [if_neg (by simpa [wellFormedLine] using hcon)]
    rw [hzero, Bool.and_eq_true]
    exact ⟨by simp [hlt], by rw [hgetD]; exact hwf⟩

/-! ## Claim C4: the aggregation sort order is a strict total order -/

theorem strLt_iff_lex : ∀ a b : Str, strLt a b = true ↔ List.Lex (· < ·) a b := by
  intro a
  induction a with
  | nil =>
    intro b
    cases b with
    | nil => simp [strLt]
    | cons c cs =>
      simp only [strLt]
      exact ⟨fun _ => List.Lex.nil, fun _ => trivial⟩
  | cons x xs ih =>
    intro b
    cases b with
    | nil => simp [strLt]
    | cons d ds =>
      simp only [strLt]
      rcases lt_trichotomy x d with h | h | h
      · rw [if_pos h]
        exact ⟨fun _ => List.Lex.rel h, fun _ => rfl⟩
      · subst h
        rw [if_neg (lt_irrefl x), if_neg (lt_irrefl x)]
        rw [List.Lex.cons_iff]
        exact ih ds
      · rw [if_neg (not_lt_of_gt h), if_pos h]
        simp only [Bool.false_eq_true, false_iff]
        intro hlex
        cases hlex with
        | cons h2 => exact lt_irrefl _ h
        | rel h2 => exact not_lt_of_gt h h2

/-- The lexicographic rank of a group under the `aggregateEvents` comparator:
count descending, then `lastSeen` descending, then namespace, resource and
reason ascending. -/
def keyMap (g : AggGroup) : ℕᵒᵈ ×ₗ (ℤᵒᵈ ×ₗ (Str ×ₗ (Str ×ₗ Str))) :=
  toLex (OrderDual.toDual g.count,
    toLex (OrderDual.toDual g.lastSeen, toLex (g.ns, toLex (g.resource, g.reason))))

theorem cmpLt_iff_keyMap_lt (a b : AggGroup) : cmpLt a b = true ↔ keyMap a < keyMap b := by
  simp only [keyMap, cmpLt]
  rw [Prod.Lex.lt_iff, Prod.Lex.lt_iff, Prod.Lex.lt_iff, Prod.Lex.lt_iff]
  simp only [OrderDual.toDual_lt_toDual, OrderDual.toDual_inj]
  rcases eq_or_ne a.count b.count with h1 | h1
  · rw [if_neg (not_not_intro h1), h1]
    simp only [lt_irrefl, false_or, true_and]
    rcases eq_or_ne a.lastSeen b.lastSeen with h2 | h2
    · rw [if_neg (not_not_intro h2), h2]
      simp only [lt_irrefl, false_or, true_and]
      rcases eq_or_ne a.ns b.ns with h3 | h3
      · rw [if_neg (not_not_intro h3), h3]
        simp only [lt_irrefl, false_or, true_and]
        rcases eq_or_ne a.resource b.resource with h4 | h4
        · rw [if_neg (not_not_intro h4), h4]
          simp only [lt_irrefl, false_or, true_and]
          exact strLt_iff_lex a.reason b.reason
        · rw [if_pos h4]
          have : ¬ a.resource = b.resource := h4
          simp only [this, false_and, or_false]
          exact strLt_iff_lex a.resource b.resource
      · rw [if_pos h3]
        have : ¬ a.ns = b.ns := h3
        simp only [this, false_and, or_false]
        exact strLt_iff_lex a.ns b.ns
    · rw [if_pos h2]
      simp only [h2, false_and, or_false, decide_eq_true_eq]
  · rw [if_pos h1]
    simp only [h1, false_and, or_false, decide_eq_true_eq]

theorem sortedRel_iff_le (a b : AggGroup) : sortedRel a b ↔ keyMap a ≤ keyMap b := by
  rw [sortedRel, ← Bool.not_eq_true, cmpLt_iff_keyMap_lt, not_lt]

instance : IsTrans AggGroup sortedRel :=
  ⟨fun a b c h1 h2 => (sortedRel_iff_le a c).mpr
    (le_trans ((sortedRel_iff_le a b).mp h1) ((sortedRel_iff_le b c).mp h2))⟩

instance : IsTotal AggGroup sortedRel :=
  ⟨fun a b => by
    rcases le_total (keyMap a) (keyMap b) with h | h
    · exact Or.inl ((sortedRel_iff_le a b).mpr h)
    · exact Or.inr ((sortedRel_iff_le b a).mpr h)⟩

theorem keyG_bump (g : AggGroup) (c : Contrib) : keyG (bump g c) = keyG g := by
  simp only [bump, keyG]
  split <;> rfl

theorem keyG_newGroup (c : Contrib) : keyG (newGroup c) = keyC c := rfl

theorem upsert_entry_key (l : List (Str × AggGroup)) (c : Contrib)
    (hl : ∀ p ∈ l, p.1 = keyG p.2) : ∀ p ∈ upsert l c, p.1 = keyG p.2 := by
  induction l with
  | nil =>
    intro p hp
    simp only [upsert, List.mem_singleton] at hp
    rw [hp]
    simp [keyG_bump, keyG_newGroup]
  | cons q rest ih =>
    obtain ⟨k, g⟩ := q
    intro p hp
    simp only [upsert] at hp
    by_cases hk : k = keyC c
    · rw [if_pos hk] at hp
      rcases List.mem_cons.mp hp with h | h
      · rw [h]
        simpa [keyG_bump] using hl (k, g) (List.mem_cons_self _ _)
      · exact hl p (List.mem_cons_of_mem _ h)
    · rw [if_neg hk] at hp
      rcases List.mem_cons.mp hp with h | h
      · rw [h]
        exact hl (k, g) (List.mem_cons_self _ _)
      · exact ih (fun q hq => hl q (List.mem_cons_of_mem _ hq)) p h

theorem upsert_fst (l : List (Str × AggGroup)) (c : Contrib) :
    (upsert l c).map Prod.fst =
      if keyC c ∈ l.map Prod.fst then l.map Prod.fst else l.map Prod.fst ++ [keyC c] := by
  induction l with
  | nil => simp [upsert]
  | cons q rest ih =>
    obtain ⟨k, g⟩ := q
    simp only [upsert, List.map_cons]
    by_cases hk : k = keyC c
    · rw [if_pos hk, if_pos (by rw [hk]; exact List.mem_cons_self _ _)]
      simp
    · rw [if_neg hk]
      simp only [List.map_cons, List.mem_cons]
      rw [ih]
      by_cases hmem : keyC c ∈ rest.map Prod.fst
      · rw [if_pos hmem, if_pos (Or.inr hmem)]
      · rw [if_neg hmem, if_neg (by rintro (h | h); exact hk h.symm; exact hmem h)]
        simp

theorem aggAssoc_invariant (events : List Str) :
    ∀ acc : List (Str × AggGroup),
      (acc.map Prod.fst).Nodup → (∀ p ∈ acc, p.1 = keyG p.2) →
      ((events.foldl aggStep acc).map Prod.fst).Nodup ∧
        (∀ p ∈ events.foldl aggStep acc, p.1 = keyG p.2) := by
  induction events with
  | nil => intro acc h1 h2; exact ⟨h1, h2⟩
  | cons line rest ih =>
    intro acc h1 h2
    simp only [List.foldl_cons]
    rcases hc : contribOf line with _ | c
    · simp only [aggStep, hc]
      exact ih acc h1 h2
    · simp only [aggStep, hc]
      apply ih
      · rw [upsert_fst]
        by_cases hmem : keyC c ∈ acc.map Prod.fst
        · rw [if_pos hmem]
          exact h1
        · rw [if_neg hmem, List.nodup_append]
          refine ⟨h1, List.nodup_singleton _, ?_⟩
          intro x hx hxe
          rw [List.mem_singleton] at hxe
          exact hmem (hxe ▸ hx)
      · exact upsert_entry_key acc c h2

theorem aggregateGroups_keys_distinct (events : List Str) :
    (aggregateGroups events).Pairwise (fun a b => keyG a ≠ keyG b) := by
  obtain ⟨h1, h2⟩ := aggAssoc_invariant events [] (by simp) (by simp)
  have hmap : (aggAssoc events).map (fun p => keyG p.2) = (aggAssoc events).map Prod.fst := by
    apply List.map_congr_left
    intro p hp
    exact (h2 p hp).symm
  have hnd : ((aggAssoc events).map (fun p => keyG p.2)).Nodup := by rw [hmap]; exact h1
  have hnd2 : ((aggregateGroups events).map keyG).Nodup := by
    rw [aggregateGroups, List.map_map]
    exact hnd
  exact List.pairwise_map.mp hnd2

/-- Claim C4: the summary slice produced by `aggregateEvents` is strictly
sorted under the comparator chain (descending count, descending lastSeen,
ascending namespace, resource, reason): every earlier group is strictly less
than every later one, so the chain is a strict total order on the groups of
any single input — no two distinct produced groups compare equal. -/
theorem aggregateSummary_strictly_sorted (events : List Str) :
    (aggregateSummary events).Pairwise (fun a b => cmpLt a b = true) := by
  have hsorted : (aggregateSummary events).Pairwise sortedRel :=
    List.sorted_insertionSort sortedRel (aggregateGroups events)
  have hperm : (aggregateSummary events).Perm (aggregateGroups events) :=
    List.perm_insertionSort sortedRel (aggregateGroups events)
  have hkeys : (aggregateSummary events).Pairwise (fun a b => keyG a ≠ keyG b) := by
    have hgd := aggregateGroups_keys_distinct events
    exact (hperm.pairwise_iff (fun {x y} h => Ne.symm h)).mpr hgd
  have hboth := hsorted.and hkeys
  apply hboth.imp
  intro a b hab
  obtain ⟨hrel, hne⟩ := hab
  have hkm : keyMap a ≠ keyMap b := by
    intro he
    apply hne
    simp only [keyMap, toLex_inj, Prod.mk.injEq, OrderDual.toDual_inj] at he
    obtain ⟨_, _, h3, h4, h5⟩ := he
    rw [keyG, keyG, h3, h4, h5]
  rcases lt_or_gt_of_ne hkm with h | h
  · exact (cmpLt_iff_keyMap_lt a b).mpr h
  · exact absurd ((cmpLt_iff_keyMap_lt b a).mpr h)
      (by rw [sortedRel] at hrel; rw [hrel]; exact Bool.false_ne_true)

/-! ## Claim C6: word-wrap round trip and width bound -/

/-- Hard-split decomposition of a word: `w`-sized pieces followed by a final
piece of length in `[0, w]`; `[word]` when no split is needed. -/
def chunksOf (w : Nat) (word : Str) : List Str :=
  if h : 0 < w ∧ w < word.length then word.take w :: chunksOf w (word.drop w) else [word]
termination_by word.length
decreasing_by
  simp only [List.length_drop]
  omega

theorem fieldsAux_append_space (b : Str) : ∀ (a : Str) (acc : Str),
    fieldsAux (a ++ ' ' :: b) acc = fieldsAux a acc ++ fields b := by
  intro a
  induction a with
  | nil =>
    intro acc
    show fieldsAux (' ' :: b) acc = fieldsAux [] acc ++ fields b
    have hsp : isSpace ' ' = true := by decide
    simp only [fieldsAux, hsp, if_true]
    by_cases ha : acc = []
    · rw [if_pos ha, if_pos ha]
      rfl
    · rw [if_neg ha, if_neg ha]
      rfl
  | cons c a2 ih =>
    intro acc
    show fieldsAux (c :: (a2 ++ ' ' :: b)) acc = fieldsAux (c :: a2) acc ++ fields b
    simp only [fieldsAux]
    by_cases hc : isSpace c = true
    · rw [if_pos hc, if_pos hc]
      by_cases ha : acc = []
      · rw [if_pos ha, if_pos ha, ih]
      · rw [if_neg ha, if_neg ha, ih]
        rfl
    · rw [if_neg hc, if_neg hc, ih]

theorem fields_append_space (a b : Str) : fields (a ++ ' ' :: b) = fields a ++ fields b :=
  fieldsAux_append_space b a []

theorem fieldsAux_all_nonspace : ∀ (s : Str) (acc : Str), (∀ c ∈ s, isSpace c = false) →
    fieldsAux s acc = if acc.reverse ++ s = [] then [] else [acc.reverse ++ s] := by
  intro s
  induction s with
  | nil =>
    intro acc _
    show (if acc = [] then [] else [acc.reverse]) = _
    by_cases ha : acc = []
    · rw [if_pos ha, if_pos (by simp [ha])]
    · rw [if_neg ha, if_neg (by simp [ha]), List.append_nil]
  | cons c s2 ih =>
    intro acc hns
    have hc : isSpace c = false := hns c (List.mem_cons_self c s2)
    show fieldsAux (c :: s2) acc = _
    simp only [fieldsAux, hc, Bool.false_eq_true, if_false]
    rw [ih (c :: acc) (fun x hx => hns x (List.mem_cons_of_mem c hx))]
    have he : (c :: acc).reverse ++ s2 = acc.reverse ++ c :: s2 := by simp
    rw [he]

theorem fields_of_word (word : Str) (h1 : word ≠ []) (h2 : ∀ c ∈ word, isSpace c = false) :
    fields word = [word] := by
  rw [fields, fieldsAux_all_nonspace word [] h2]
  simp [h1]

theorem fieldsAux_mem_spec : ∀ (s : Str) (acc : Str), (∀ c ∈ acc, isSpace c = false) →
    ∀ x ∈ fieldsAux s acc,
      x ≠ [] ∧ (∀ c ∈ x, isSpace c = false) ∧ x.length ≤ s.length + acc.length := by
  intro s
  induction s with
  | nil =>
    intro acc hacc x hx
    simp only [fieldsAux] at hx
    by_cases ha : acc = []
    · rw [if_pos ha] at hx
      cases hx
    · rw [if_neg ha] at hx
      rw [List.mem_singleton] at hx
      subst hx
      refine ⟨by simpa using ha, ?_, by simp⟩
      intro c hc
      exact hacc c (List.mem_reverse.mp hc)
  | cons c s2 ih =>
    intro acc hacc x hx
    simp only [fieldsAux] at hx
    by_cases hc : isSpace c
    · rw [if_pos hc] at hx
      by_cases ha : acc = []
      · rw [if_pos ha] at hx
        obtain ⟨p1, p2, p3⟩ := ih [] (by simp) x hx
        exact ⟨p1, p2, by simp at p3 ⊢; omega⟩
      · rw [if_neg ha] at hx
        rcases List.mem_cons.mp hx with h | h
        · subst h
          refine ⟨by simpa using ha, ?_,
            by simp only [List.length_reverse, List.length_cons]; omega⟩
          intro d hd
          exact hacc d (List.mem_reverse.mp hd)
        · obtain ⟨p1, p2, p3⟩ := ih [] (by simp) x h
          exact ⟨p1, p2, by simp at p3 ⊢; omega⟩
    · rw [if_neg hc] at hx
      have hacc2 : ∀ d ∈ c :: acc, isSpace d = false := by
        intro d hd
        rcases List.mem_cons.mp hd with h | h
        · rw [h]
          simpa using hc
        · exact hacc d h
      obtain ⟨p1, p2, p3⟩ := ih (c :: acc) hacc2 x hx
      refine ⟨p1, p2, ?_⟩
      simp only [List.length_cons] at p3 ⊢
      omega

theorem mem_fields_spec (s : Str) (x : Str) (hx : x ∈ fields s) :
    x ≠ [] ∧ (∀ c ∈ x, isSpace c = false) ∧ x.length ≤ s.length := by
  obtain ⟨p1, p2, p3⟩ := fieldsAux_mem_spec s [] (by simp) x hx
  exact ⟨p1, p2, by simpa using p3⟩

theorem splitLong_spec (w : Nat) (hw : 0 < w) : ∀ (n : Nat) (word : Str), word.length ≤ n →
    ∀ lines : List Str, ∃ cs last,
      chunksOf w word = cs ++ [last] ∧
      splitLong w lines word = (lines ++ cs, last) ∧
      last.length ≤ w ∧ (∀ p ∈ cs, p.length = w) ∧
      (word ≠ [] → last ≠ []) ∧
      ((∀ c ∈ word, isSpace c = false) →
        (∀ p ∈ cs, ∀ c ∈ p, isSpace c = false) ∧ (∀ c ∈ last, isSpace c = false)) := by
  intro n
  induction n with
  | zero =>
    intro word hlen lines
    have hw0 : word = [] := List.length_eq_zero.mp (Nat.le_zero.mp hlen)
    subst hw0
    refine ⟨[], [], ?_, ?_, by omega, by simp, by simp, by simp⟩
    · rw [chunksOf]
      simp
    · rw [splitLong]
      simp
  | succ n ih =>
    intro word hlen lines
    by_cases h : w < word.length
    · have hdrop : (word.drop w).length ≤ n := by
        simp only [List.length_drop]
        omega
      obtain ⟨cs2, last2, e1, e2, e3, e4, e5, e6⟩ := ih (word.drop w) hdrop (lines ++ [word.take w])
      refine ⟨word.take w :: cs2, last2, ?_, ?_, e3, ?_, ?_, ?_⟩
      · rw [chunksOf, dif_pos ⟨hw, h⟩, e1]
        rfl
      · rw [splitLong, dif_pos ⟨hw, h⟩, e2]
        simp
      · intro p hp
        rcases List.mem_cons.mp hp with h2 | h2
        · rw [h2, List.length_take]
          omega
        · exact e4 p h2
      · intro _
        apply e5
        intro hd
        have : (word.drop w).length = 0 := by rw [hd]; rfl
        simp only [List.length_drop] at this
        omega
      · intro hns
        have hnsd : ∀ c ∈ word.drop w, isSpace c = false :=
          fun c hc => hns c (List.drop_subset w word hc)
        obtain ⟨q1, q2⟩ := e6 hnsd
        refine ⟨?_, q2⟩
        intro p hp
        rcases List.mem_cons.mp hp with h2 | h2
        · rw [h2]
          intro c hc
          exact hns c (List.take_subset w word hc)
        · exact q1 p h2
    · refine ⟨[], word, ?_, ?_, by omega, by simp, fun hx => hx, fun hns => ⟨by simp, hns⟩⟩
      · rw [chunksOf, dif_neg (by intro hc; exact h hc.2)]
        rfl
      · rw [splitLong, dif_neg (by intro hc; exact h hc.2)]
        simp

theorem flatMap_singleton_of (l : List Str) (f : Str → List Str)
    (h : ∀ x ∈ l, f x = [x]) : l.flatMap f = l := by
  induction l with
  | nil => rfl
  | cons x xs ih =>
    rw [List.flatMap_cons, h x (List.mem_cons_self _ _),
      ih (fun y hy => h y (List.mem_cons_of_mem _ hy))]
    rfl

theorem flushLine_flat (lines : List Str) (cur : Str) :
    (flushLine lines cur).flatMap fields = lines.flatMap fields ++ fields cur := by
  unfold flushLine
  by_cases hc : cur = []
  · rw [if_pos hc, hc]
    show _ = _ ++ fields []
    rw [fields]
    show _ = _ ++ []
    rw [List.append_nil]
  · rw [if_neg hc]
    simp

theorem flushLine_bound (w : Nat) (lines : List Str) (cur : Str)
    (hl : ∀ l ∈ lines, l.length ≤ w) (hc : cur.length ≤ w) :
    ∀ l ∈ flushLine lines cur, l.length ≤ w := by
  unfold flushLine
  split
  · exact hl
  · intro l hli
    rcases List.mem_append.mp hli with h | h
    · exact hl l h
    · rw [List.mem_singleton] at h
      rw [h]
      exact hc

/-- The fold invariant for the word loop of `wrapLine`. -/
def WrapInv (w : Nat) (done : List Str) (st : List Str × Str) : Prop :=
  st.1.flatMap fields ++ fields st.2 = done.flatMap (chunksOf w) ∧
    (∀ l ∈ st.1, l.length ≤ w) ∧ st.2.length ≤ w

theorem wrapStep_inv (w : Nat) (hw : 0 < w) (done : List Str) (st : List Str × Str)
    (word : Str) (hword : word ≠ [] ∧ ∀ c ∈ word, isSpace c = false)
    (hinv : WrapInv w done st) : WrapInv w (done ++ [word]) (wrapStep w st word) := by
  obtain ⟨hflat, hbound, hcur⟩ := hinv
  obtain ⟨rows, cur⟩ := st
  obtain ⟨hwne, hwns⟩ := hword
  simp only [WrapInv, wrapStep] at *
  by_cases h1 : w < word.length
  · rw [if_pos h1]
    obtain ⟨cs, last, e1, e2, e3, e4, e5, e6⟩ :=
      splitLong_spec w hw word.length word (le_refl _) (flushLine rows cur)
    obtain ⟨q1, q2⟩ := e6 hwns
    rw [e2]
    refine ⟨?_, ?_, e3⟩
    · have hlast : fields last = [last] := fields_of_word last (e5 hwne) q2
      have hcs : ∀ p ∈ cs, fields p = [p] := by
        intro p hp
        apply fields_of_word p _ (q1 p hp)
        intro hpe
        have := e4 p hp
        rw [hpe] at this
        simp at this
        omega
      have hcsflat : cs.flatMap fields = cs := flatMap_singleton_of cs fields hcs
      simp only [List.flatMap_append, flushLine_flat, hcsflat, hlast]
      have hsingle : ([word] : List Str).flatMap (chunksOf w) = chunksOf w word := by simp
      rw [hsingle, e1, ← hflat]
      simp [List.append_assoc]
    · intro l hl
      rcases List.mem_append.mp hl with h | h
      · exact flushLine_bound w rows cur hbound hcur l h
      · rw [e4 l h]
  · rw [if_neg h1]
    have hchunk : chunksOf w word = [word] := by
      rw [chunksOf, dif_neg (by intro hc; exact h1 hc.2)]
    have hfword : fields word = [word] := fields_of_word word hwne hwns
    by_cases h2 : cur = []
    · rw [if_pos h2]
      refine ⟨?_, hbound, by dsimp only; omega⟩
      rw [List.flatMap_append]
      simp only [List.flatMap_cons]
      show _ ++ fields word = _ ++ (chunksOf w word ++ [])
      rw [List.append_nil, hchunk, hfword, ← hflat, h2]
      show _ ++ _ = _ ++ fields [] ++ _
      rw [fields]
      show _ = _ ++ [] ++ _
      rw [List.append_nil]
    · rw [if_neg h2]
      by_cases h3 : cur.length + 1 + word.length ≤ w
      · rw [if_pos h3]
        refine ⟨?_, hbound, by simp; omega⟩
        rw [fields_append_space, List.flatMap_append]
        simp only [List.flatMap_cons]
        show _ = _ ++ (chunksOf w word ++ [])
        rw [List.append_nil, hchunk, hfword, ← hflat, List.append_assoc]
      · rw [if_neg h3]
        refine ⟨?_, ?_, by dsimp only; omega⟩
        · rw [List.flatMap_append, List.flatMap_append]
          simp only [List.flatMap_cons]
          show _ ++ (fields cur ++ []) ++ fields word = _ ++ (chunksOf w word ++ [])
          rw [List.append_nil, List.append_nil, hchunk, hfword, ← hflat, List.append_assoc]
        · intro l hl
          rcases List.mem_append.mp hl with h | h
          · exact hbound l h
          · rw [List.mem_singleton] at h
            rw [h]
            exact hcur

theorem wrapFold_inv (w : Nat) (hw : 0 < w) :
    ∀ (words : List Str), (∀ x ∈ words, x ≠ [] ∧ ∀ c ∈ x, isSpace c = false) →
    ∀ (done : List Str) (st : List Str × Str), WrapInv w done st →
      WrapInv w (done ++ words) (words.foldl (wrapStep w) st) := by
  intro words
  induction words with
  | nil => intro _ done st h; simpa using h
  | cons word rest ih =>
    intro hws done st hinv
    have h1 := wrapStep_inv w hw done st word (hws word (List.mem_cons_self _ _)) hinv
    have h2 := ih (fun x hx => hws x (List.mem_cons_of_mem _ hx)) (done ++ [word]) _ h1
    simpa using h2

/-- Claim C6: for a positive width, splitting each `wrapLine` output line back
into its words recovers exactly the paragraph's word sequence with each
over-long word replaced by its hard-split `width`-sized pieces (i.e. joining
the lines with single spaces after merging hard-split segments reproduces the
word sequence), and every produced line fits within the width, a single
over-long word being hard-split exactly at width-sized boundaries. -/
theorem wrapLine_spec (text : Str) (width : Int) (hw : 0 < width) :
    (wrapLine text width).flatMap fields = (fields text).flatMap (chunksOf width.toNat) ∧
      ∀ l ∈ wrapLine text width, (l.length : Int) ≤ width := by
  have hwn : 0 < width.toNat := by omega
  by_cases hcase : (text.length : Int) ≤ width
  · rw [wrapLine, if_pos (Or.inr hcase)]
    constructor
    · have hchunk : ∀ x ∈ fields text, chunksOf width.toNat x = [x] := by
        intro x hx
        have hle := (mem_fields_spec text x hx).2.2
        rw [chunksOf, dif_neg]
        intro hc
        omega
      rw [flatMap_singleton_of _ _ hchunk]
      simp
    · intro l hl
      rw [List.mem_singleton] at hl
      rw [hl]
      exact hcase
  · simp only [wrapLine]
    rw [if_neg (by push_neg; exact ⟨by omega, by omega⟩)]
    by_cases hwords : fields text = []
    · rw [if_pos hwords]
      constructor
      · rw [hwords]
        show fields [] ++ [] = _
        rfl
      · intro l hl
        rw [List.mem_singleton] at hl
        rw [hl]
        simp
        omega
    · rw [if_neg hwords]
      have hwprops : ∀ x ∈ fields text, x ≠ [] ∧ ∀ c ∈ x, isSpace c = false := by
        intro x hx
        obtain ⟨p1, p2, _⟩ := mem_fields_spec text x hx
        exact ⟨p1, p2⟩
      have hbase : WrapInv width.toNat [] ([], []) := by
        refine ⟨?_, by simp, by simp⟩
        show [] ++ fields [] = []
        rfl
      have hinv := wrapFold_inv width.toNat hwn (fields text) hwprops [] ([], []) hbase
      simp only [List.nil_append] at hinv
      obtain ⟨hflat, hbound, hcur⟩ := hinv
      set st := (fields text).foldl (wrapStep width.toNat) ([], []) with hst
      have hlineflat : (flushLine st.1 st.2).flatMap fields =
          (fields text).flatMap (chunksOf width.toNat) := by
        rw [flushLine_flat]
        exact hflat
      have hlinebound : ∀ l ∈ flushLine st.1 st.2, l.length ≤ width.toNat :=
        flushLine_bound width.toNat st.1 st.2 hbound hcur
      by_cases hempty : flushLine st.1 st.2 = []
      · rw [if_pos hempty]
        constructor
        · rw [hempty] at hlineflat
          rw [← hlineflat]
          show fields [] ++ [] = []
          rfl
        · intro l hl
          rw [List.mem_singleton] at hl
          rw [hl]
          simp
          omega
      · rw [if_neg hempty]
        refine ⟨hlineflat, ?_⟩
        intro l hl
        have := hlinebound l hl
        omega

/-- Witness for C6 at the paragraph "hello world foo" and width 7. -/
theorem wrapLine_spec_witness :
    ((wrapLine "hello world foo".toList 7).flatMap fields =
        (fields "hello world foo".toList).flatMap (chunksOf (7 : Int).toNat) ∧
      ∀ l ∈ wrapLine "hello world foo".toList 7, (l.length : Int) ≤ 7) :=
  wrapLine_spec "hello world foo".toList 7 (by decide)

/-! ## Claim C3: which contributing event supplies the `last*` fields -/

/-- First-match lookup in the group association list (Go map access). -/
def lookupK : List (Str × AggGroup) → Str → Option AggGroup
  | [], _ => none
  | (k, g) :: rest, key => if k = key then some g else lookupK rest key

/-- The per-key update step seen by a single group. -/
def stepK (og : Option AggGroup) (c : Contrib) : Option AggGroup :=
  some (bump (og.getD (newGroup c)) c)

/-- The contributions of `events` that hit a given key, in arrival order. -/
def contribsOf (events : List Str) (key : Str) : List Contrib :=
  (events.filterMap contribOf).filter (fun c => keyC c == key)

/-- The maximum parsed timestamp over a contribution list (0 when empty). -/
def maxT (cs : List Contrib) : Int := (cs.map Contrib.t).foldl max 0

theorem lookupK_upsert_self (l : List (Str × AggGroup)) (c : Contrib) :
    lookupK (upsert l c) (keyC c) = some (bump ((lookupK l (keyC c)).getD (newGroup c)) c) := by
  induction l with
  | nil => simp [upsert, lookupK]
  | cons p rest ih =>
    obtain ⟨k, g⟩ := p
    simp only [upsert, lookupK]
    by_cases hk : k = keyC c
    · rw [if_pos hk]
      simp [lookupK, hk]
    · rw [if_neg hk]
      simp only [lookupK, if_neg hk]
      exact ih

theorem lookupK_upsert_other (l : List (Str × AggGroup)) (c : Contrib) (key : Str)
    (hk : key ≠ keyC c) : lookupK (upsert l c) key = lookupK l key := by
  induction l with
  | nil =>
    simp only [upsert, lookupK]
    rw [if_neg (fun h => hk h.symm)]
  | cons p rest ih =>
    obtain ⟨k, g⟩ := p
    simp only [upsert]
    by_cases h2 : k = keyC c
    · rw [if_pos h2]
      simp only [lookupK]
      rw [if_neg (by rw [h2]; exact fun h => hk h.symm), if_neg (by rw [h2]; exact fun h => hk h.symm)]
    · rw [if_neg h2]
      simp only [lookupK]
      by_cases h3 : k = key
      · rw [if_pos h3, if_pos h3]
      · rw [if_neg h3, if_neg h3]
        exact ih

theorem lookupK_fold (events : List Str) : ∀ (acc : List (Str × AggGroup)) (key : Str),
    lookupK (events.foldl aggStep acc) key =
      (contribsOf events key).foldl stepK (lookupK acc key) := by
  induction events with
  | nil => intro acc key; simp [contribsOf]
  | cons line rest ih =>
    intro acc key
    simp only [List.foldl_cons, contribsOf]
    rcases hc : contribOf line with _ | c
    · simp only [aggStep, hc, List.filterMap_cons_none hc]
      exact ih acc key
    · simp only [aggStep, hc, List.filterMap_cons_some hc]
      by_cases hkey : keyC c = key
      · rw [List.filter_cons_of_pos (by simpa using hkey)]
        rw [List.foldl_cons]
        have : lookupK (upsert acc c) key = stepK (lookupK acc key) c := by
          rw [← hkey, lookupK_upsert_self, stepK, hkey]
        rw [ih (upsert acc c) key, this]
        rfl
      · rw [List.filter_cons_of_neg (by simpa using hkey)]
        rw [ih (upsert acc c) key, lookupK_upsert_other acc c key (fun h => hkey h.symm)]
        rfl

theorem lookupK_of_mem : ∀ (l : List (Str × AggGroup)), (l.map Prod.fst).Nodup →
    ∀ p ∈ l, lookupK l p.1 = some p.2 := by
  intro l
  induction l with
  | nil => intro _ p hp; cases hp
  | cons q rest ih =>
    obtain ⟨k, g⟩ := q
    intro hnd p hp
    simp only [List.map_cons, List.nodup_cons] at hnd
    rcases List.mem_cons.mp hp with h | h
    · rw [h]
      simp [lookupK]
    · simp only [lookupK]
      by_cases hk : k = p.1
      · exfalso
        apply hnd.1
        rw [hk]
        exact List.mem_map.mpr ⟨p, h, rfl⟩
      · rw [if_neg hk]
        exact ih hnd.2 p h

theorem foldl_max_init_le : ∀ (l : List Int) (a : Int), a ≤ l.foldl max a := by
  intro l
  induction l with
  | nil => intro a; exact le_refl a
  | cons x xs ih =>
    intro a
    exact le_trans (le_max_left a x) (ih (max a x))

theorem mem_le_foldl_max : ∀ (l : List Int) (a : Int) (x : Int), x ∈ l → x ≤ l.foldl max a := by
  intro l
  induction l with
  | nil => intro a x hx; cases hx
  | cons y ys ih =>
    intro a x hx
    rcases List.mem_cons.mp hx with h | h
    · rw [h]
      exact le_trans (le_max_right a y) (foldl_max_init_le ys (max a y))
    · exact ih (max a y) x h

theorem maxT_le (cs : List Contrib) (c : Contrib) (hc : c ∈ cs) : c.t ≤ maxT cs :=
  mem_le_foldl_max (cs.map Contrib.t) 0 c.t (List.mem_map.mpr ⟨c, hc, rfl⟩)

theorem maxT_append_singleton (cs : List Contrib) (c : Contrib) :
    maxT (cs ++ [c]) = max (maxT cs) c.t := by
  simp [maxT, List.foldl_append]

theorem maxT_pos (cs : List Contrib) (hne : cs ≠ []) (hpos : ∀ c ∈ cs, 0 < c.t) :
    0 < maxT cs := by
  rcases cs with _ | ⟨c, rest⟩
  · exact absurd rfl hne
  · exact lt_of_lt_of_le (hpos c (List.mem_cons_self _ _)) (maxT_le _ c (List.mem_cons_self _ _))

theorem foldK_char : ∀ cs : List Contrib, cs ≠ [] → (∀ c ∈ cs, 0 < c.t) →
    ∃ g, cs.foldl stepK none = some g ∧
      g.count = cs.length ∧ g.lastSeen = maxT cs ∧
      (cs.find? (fun c => c.t == maxT cs)).map (fun c => (c.ty, c.msg)) =
        some (g.lastType, g.lastMessage) := by
  intro cs
  induction cs using List.reverseRecOn with
  | nil => intro h; exact absurd rfl h
  | append_singleton cs c ih =>
    intro _ hpos
    by_cases hcs : cs = []
    · subst hcs
      refine ⟨bump (newGroup c) c, rfl, ?_⟩
      have hct : 0 < c.t := hpos c (by simp)
      have hmax : maxT ([] ++ [c]) = c.t := by
        rw [maxT_append_singleton]
        show max (maxT []) c.t = c.t
        have : maxT [] = 0 := rfl
        rw [this]
        omega
      rw [hmax]
      have hbump : bump (newGroup c) c =
          { ns := c.ns, resource := c.resource, reason := c.reason,
            lastMessage := c.msg, lastSeen := c.t, lastType := c.ty, count := 1 } := by
        simp [bump, newGroup]
      rw [hbump]
      refine ⟨rfl, rfl, ?_⟩
      simp [List.find?]
    · obtain ⟨g, hg, hcount, hseen, hfind⟩ :=
        ih hcs (fun x hx => hpos x (List.mem_append_left _ hx))
      have hposc : 0 < c.t := hpos c (List.mem_append_right _ (List.mem_singleton_self c))
      have hmaxpos : 0 < maxT cs :=
        maxT_pos cs hcs (fun x hx => hpos x (List.mem_append_left _ hx))
      rw [List.foldl_append, hg]
      simp only [List.foldl_cons, List.foldl_nil]
      rw [maxT_append_singleton]
      by_cases hgt : maxT cs < c.t
      · have hmax : max (maxT cs) c.t = c.t := by omega
        rw [hmax]
        refine ⟨_, rfl, ?_, ?_, ?_⟩
        · show (bump g c).count = _
          simp only [bump]
          split <;> · simp [hcount, List.length_append]
        · show (bump g c).lastSeen = c.t
          simp only [bump]
          rw [if_pos (Or.inr (by omega))]
        · have hnone : cs.find? (fun x => x.t == c.t) = none := by
            rw [List.find?_eq_none]
            intro x hx
            have := maxT_le cs x hx
            simp only [beq_iff_eq]
            omega
          rw [List.find?_append, hnone]
          simp only [Option.none_or]
          rw [List.find?_cons_of_pos _ (by simp)]
          show some (c.ty, c.msg) = some ((bump g c).lastType, (bump g c).lastMessage)
          simp only [bump]
          rw [if_pos (Or.inr (by omega))]
      · have hmax : max (maxT cs) c.t = maxT cs := by omega
        rw [hmax]
        have hbump : bump g c = { g with count := g.count + 1 } := by
          simp only [bump]
          rw [if_neg]
          push_neg
          constructor
          · omega
          · omega
        refine ⟨_, rfl, ?_, ?_, ?_⟩
        · show (bump g c).count = _
          rw [hbump]
          simp [hcount, List.length_append]
        · show (bump g c).lastSeen = maxT cs
          rw [hbump]
          simpa using hseen
        · obtain ⟨c0, hc0, hc0e⟩ := Option.map_eq_some'.mp hfind
          rw [List.find?_append, hc0]
          show _ = some ((bump g c).lastType, (bump g c).lastMessage)
          rw [hbump]
          simpa using hc0e

/-- Concrete event lines with exactly equal timestamps and different
messages, used to refute the last-one-wins tie-break. -/
def exLine1 : Str :=
  "2024-01-01T00:00:00Z │ Pod/a │ Normal │ Created │ default │ m1".toList

def exLine2 : Str :=
  "2024-01-01T00:00:00Z │ Pod/a │ Normal │ Created │ default │ m2".toList

/-- Counterexample for C3 as stated: two well-formed events with the same
group key and exactly equal parsed timestamps but different messages
aggregate to a single group carrying the FIRST event's message (`m1`), not
the later one's (`m2`): on an exact timestamp tie the first one wins. -/
theorem aggregate_lastSeen_counterexample :
    (contribOf exLine1).map Contrib.t = (contribOf exLine2).map Contrib.t ∧
      (contribOf exLine1).map keyC = (contribOf exLine2).map keyC ∧
      (contribOf exLine1).map Contrib.msg = some "m1".toList ∧
      (contribOf exLine2).map Contrib.msg = some "m2".toList ∧
      (aggregateGroups [exLine1, exLine2]).map AggGroup.lastMessage = ["m1".toList] := by
  refine ⟨by decide, by decide, by decide, by decide, by decide⟩

/-- Claim C3 (amended): for well-formed event lines (6 fields, parseable
positive timestamp) each group's `lastSeen` is the greatest parsed timestamp
of its contributing events, and `lastType`/`lastMessage` come from the FIRST
contributing event in arrival order attaining that greatest timestamp — on an
exact timestamp tie the earlier event wins, not the later one. -/
theorem aggregate_lastSeen_spec (events : List Str)
    (hwf : ∀ line ∈ events, ∃ c, contribOf line = some c ∧ 0 < c.t) :
    ∀ g ∈ aggregateGroups events,
      g.count = (contribsOf events (keyG g)).length ∧
      g.lastSeen = maxT (contribsOf events (keyG g)) ∧
      ((contribsOf events (keyG g)).find?
          (fun c => c.t == maxT (contribsOf events (keyG g)))).map
        (fun c => (c.ty, c.msg)) = some (g.lastType, g.lastMessage) := by
  intro g hg
  obtain ⟨hnd, hkey⟩ := aggAssoc_invariant events [] (by simp) (by simp)
  obtain ⟨p, hp, hpg⟩ := List.mem_map.mp hg
  have hp1 : p.1 = keyG g := by rw [hkey p hp, hpg]
  have hlook : lookupK (aggAssoc events) (keyG g) = some g := by
    rw [← hp1, ← hpg]
    exact lookupK_of_mem (aggAssoc events) hnd p hp
  have hfold : lookupK (aggAssoc events) (keyG g) =
      (contribsOf events (keyG g)).foldl stepK none := lookupK_fold events [] (keyG g)
  rw [hlook] at hfold
  have hpos : ∀ c ∈ contribsOf events (keyG g), 0 < c.t := by
    intro c hc
    simp only [contribsOf, List.mem_filter] at hc
    obtain ⟨line, hline, hcl⟩ := List.mem_filterMap.mp hc.1
    obtain ⟨c2, hc2, hc2pos⟩ := hwf line hline
    rw [hc2] at hcl
    cases hcl
    exact hc2pos
  have hne : contribsOf events (keyG g) ≠ [] := by
    intro he
    rw [he] at hfold
    simp only [List.foldl_nil, lookupK] at hfold
    cases hfold
  obtain ⟨g2, hg2, hcount, hseen, hfind⟩ := foldK_char (contribsOf events (keyG g)) hne hpos
  rw [← hfold] at hg2
  have hgg : g2 = g := by
    cases hg2
    rfl
  subst hgg
  exact ⟨hcount, hseen, hfind⟩

/-- Witness for C3 at a two-event input whose second event carries the
strictly greater timestamp: its fields win. -/
def exLine3 : Str :=
  "2024-01-02T00:00:00Z │ Pod/a │ Normal │ Created │ default │ m3".toList

/-- The single group produced by the two-event C3 witness input. -/
def exGroup : AggGroup :=
  (aggregateGroups [exLine1, exLine3]).getD 0
    { ns := [], resource := [], reason := [], lastMessage := [], lastSeen := 0,
      lastType := [], count := 0 }

theorem aggregate_lastSeen_spec_witness :
    exGroup.count = (contribsOf [exLine1, exLine3] (keyG exGroup)).length ∧
      exGroup.lastSeen = maxT (contribsOf [exLine1, exLine3] (keyG exGroup)) ∧
      ((contribsOf [exLine1, exLine3] (keyG exGroup)).find?
          (fun c => c.t == maxT (contribsOf [exLine1, exLine3] (keyG exGroup)))).map
        (fun c => (c.ty, c.msg)) = some (exGroup.lastType, exGroup.lastMessage) :=
  aggregate_lastSeen_spec [exLine1, exLine3] (by decide) exGroup (by decide)

/-! ## Claim C5: substring versus subsequence ranking -/

theorem walkBase_le (prev : Option Char) (i : Nat) :
    8 ≤ walkBase prev i ∧ walkBase prev i ≤ 18 := by
  rw [walkBase]
  split <;> omega

theorem fuzzyWalk_bound (qr : Str) : ∀ (t : Str) (prev : Option Char) (i qi : Nat)
    (score : Int) (streak : Nat) (lm : Int),
    (streak < qi ∨ (qi = 0 ∧ streak = 0)) → (qi = 0 → lm = -2) → lm < (i : Int) →
    2 * (fuzzyWalk qr t prev i qi score streak lm).1 +
        (44 * (qi : Int) + (qi : Int) * ((qi : Int) - 1)) ≤
      2 * score + (44 * ((fuzzyWalk qr t prev i qi score streak lm).2 : Int) +
        ((fuzzyWalk qr t prev i qi score streak lm).2 : Int) *
          (((fuzzyWalk qr t prev i qi score streak lm).2 : Int) - 1)) ∧
    (fuzzyWalk qr t prev i qi score streak lm).2 ≤ qi + t.length := by
  intro t
  induction t with
  | nil =>
    intro prev i qi score streak lm _ _ _
    exact ⟨le_refl _, by simp [fuzzyWalk]⟩
  | cons ch rest ih =>
    intro prev i qi score streak lm hinv hlm0 hlmi
    simp only [fuzzyWalk]
    by_cases h : qi < qr.length
    · rw [dif_pos h]
      by_cases hch : ch = qr.get ⟨qi, h⟩
      · rw [if_pos hch]
        by_cases hcons : (i : Int) = lm + 1
        · rw [if_pos hcons]
          have hqi : qi ≠ 0 := by
            intro h0
            rw [hlm0 h0] at hcons
            omega
          have hstreak : streak < qi := by
            rcases hinv with h2 | ⟨h0, _⟩
            · exact h2
            · exact absurd h0 hqi
          obtain ⟨ih1, ih2⟩ := ih (some ch) (i + 1) (qi + 1)
            (score + (walkBase prev i + 4 + (streak + 1 : Nat))) (streak + 1) (i : Int)
            (Or.inl (by omega)) (fun h0 => absurd h0 (by omega)) (by push_cast; omega)
          constructor
          · have hb := (walkBase_le prev i).2
            have hsq : ((streak : Int) + 1) ≤ (qi : Int) := by exact_mod_cast hstreak
            push_cast at ih1 ⊢
            ring_nf at ih1 ⊢
            push_cast at hsq
            linarith
          · simp only [List.length_cons]
            omega
        · rw [if_neg hcons]
          obtain ⟨ih1, ih2⟩ := ih (some ch) (i + 1) (qi + 1)
            (score + walkBase prev i) 0 (i : Int)
            (Or.inl (by omega)) (fun h0 => absurd h0 (by omega)) (by push_cast; omega)
          constructor
          · have hb := (walkBase_le prev i).2
            have hq0 : (0 : Int) ≤ (qi : Int) := by positivity
            push_cast at ih1 ⊢
            ring_nf at ih1 ⊢
            linarith
          · simp only [List.length_cons]
            omega
      · rw [if_neg hch]
        obtain ⟨ih1, ih2⟩ := ih (some ch) (i + 1) qi score streak lm hinv hlm0
          (by push_cast at hlmi ⊢; omega)
        refine ⟨ih1, ?_⟩
        simp only [List.length_cons]
        omega
    · rw [dif_neg h]
      exact ⟨le_refl _, by simp⟩

/-- Claim C5 (amended): when the query (lower-cased and trimmed) is a literal
substring of candidate A at position `idx` but only a non-contiguous
subsequence of candidate B, A scores strictly higher than B provided the
substring score's position and length penalties plus the theoretical ceiling
of subsequence bonuses stay below the 1200 base constant:
`4*idx + 2*(len A - len q) + 44*len q + len q*(len q - 1) < 2400`
(all lengths of the lower-cased trimmed strings).  Without this bound the
claim is false: subsequence streak bonuses grow quadratically in the query
length while the substring score is penalized by position and length. -/
theorem fuzzy_substring_dominance (query a b : Str) (idx : Nat)
    (hA : strIndex (lowerStr (trimSpace query)) (lowerStr (trimSpace a)) = some idx)
    (hB : strIndex (lowerStr (trimSpace query)) (lowerStr (trimSpace b)) = none)
    (hBm : (fuzzyMatchScore query b).2 = true)
    (hbound : 4 * (idx : Int) +
        2 * (((lowerStr (trimSpace a)).length : Int) -
          ((lowerStr (trimSpace query)).length : Int)) +
        44 * ((lowerStr (trimSpace query)).length : Int) +
        ((lowerStr (trimSpace query)).length : Int) *
          (((lowerStr (trimSpace query)).length : Int) - 1) < 2400) :
    (fuzzyMatchScore query b).1 < (fuzzyMatchScore query a).1 := by
  have hqne : lowerStr (trimSpace query) ≠ [] := by
    intro he
    rw [he] at hB
    cases htb : lowerStr (trimSpace b) with
    | nil => rw [htb] at hB; simp [strIndex] at hB
    | cons c cs => rw [htb] at hB; simp [strIndex, List.isPrefixOf] at hB
  have hm1 : 1 ≤ ((lowerStr (trimSpace query)).length : Int) := by
    have := List.length_pos.mpr hqne
    omega
  have hprod : 0 ≤ ((lowerStr (trimSpace query)).length : Int) *
      (((lowerStr (trimSpace query)).length : Int) - 1) := by
    apply mul_nonneg <;> omega
  have htAne : lowerStr (trimSpace a) ≠ [] := by
    intro he
    rw [he] at hA
    simp only [strIndex] at hA
    rw [if_neg hqne] at hA
    cases hA
  have htBne : lowerStr (trimSpace b) ≠ [] := by
    intro he
    simp only [fuzzyMatchScore] at hBm
    rw [if_neg hqne, if_pos he] at hBm
    simp at hBm
  have hscoreA : (fuzzyMatchScore query a).1 =
      1200 - (idx : Int) * 2 - (((lowerStr (trimSpace a)).length : Int) -
        ((lowerStr (trimSpace query)).length : Int)) := by
    simp only [fuzzyMatchScore]
    rw [if_neg hqne, if_neg htAne, hA]
    dsimp only
    rw [if_neg (by intro hcon; linarith)]
  rw [hscoreA]
  rcases hw : fuzzyWalk (lowerStr (trimSpace query)) (lowerStr (trimSpace b)) none 0 0 0 0 (-2)
    with ⟨ws, wq⟩
  have hBscore : (fuzzyMatchScore query b).1 =
      (if ws - (((lowerStr (trimSpace b)).length : Int) -
          ((lowerStr (trimSpace query)).length : Int)) < 1 then 1
        else ws - (((lowerStr (trimSpace b)).length : Int) -
          ((lowerStr (trimSpace query)).length : Int))) ∧
      wq = (lowerStr (trimSpace query)).length := by
    have hBm2 := hBm
    simp only [fuzzyMatchScore] at hBm2 ⊢
    rw [if_neg hqne, if_neg htBne, hB, hw] at hBm2 ⊢
    by_cases hwq : wq = (lowerStr (trimSpace query)).length
    · rw [if_neg (not_not_intro hwq)] at hBm2 ⊢
      exact ⟨rfl, hwq⟩
    · rw [if_pos hwq] at hBm2
      cases hBm2
  obtain ⟨hBs, hwq⟩ := hBscore
  obtain ⟨hw1, hw2⟩ := fuzzyWalk_bound (lowerStr (trimSpace query))
    (lowerStr (trimSpace b)) none 0 0 0 0 (-2) (Or.inr ⟨rfl, rfl⟩) (fun _ => rfl) (by norm_num)
  rw [hw] at hw1 hw2
  simp only [hwq] at hw1 hw2
  push_cast at hw1
  simp only [Nat.cast_zero, mul_zero, zero_mul, add_zero, zero_add, mul_one, zero_sub] at hw1
  rw [hBs]
  have hpen : 0 ≤ ((lowerStr (trimSpace b)).length : Int) -
      ((lowerStr (trimSpace query)).length : Int) := by
    simp only [Nat.zero_add] at hw2
    omega
  split
  · linarith
  · linarith

set_option maxRecDepth 100000 in
set_option maxHeartbeats 1000000 in
/-- Counterexample for C5 as stated: against the query "ab", candidate A
("ab" followed by 1200 filler characters) contains the query literally, while
candidate B ("a-b") only matches it as a non-contiguous subsequence — yet A's
clamped substring score (1) is strictly below B's subsequence score (35). -/
theorem fuzzy_substring_dominance_counterexample :
    (strIndex (lowerStr (trimSpace "ab".toList))
        (lowerStr (trimSpace ("ab".toList ++ List.replicate 1200 'x')))).isSome = true ∧
      strIndex (lowerStr (trimSpace "ab".toList)) (lowerStr (trimSpace "a-b".toList)) = none ∧
      (fuzzyMatchScore "ab".toList "a-b".toList).2 = true ∧
      (fuzzyMatchScore "ab".toList ("ab".toList ++ List.replicate 1200 'x')).1 <
        (fuzzyMatchScore "ab".toList "a-b".toList).1 := by
  refine ⟨by decide, by decide, by decide, by decide⟩

/-- Witness for C5 at the spec's own scenario: query "pd" against
"Deployment/pd-worker" (substring at position 11) and "Pod/web-1"
(subsequence only). -/
theorem fuzzy_substring_dominance_witness :
    (fuzzyMatchScore "pd".toList "Pod/web-1".toList).1 <
      (fuzzyMatchScore "pd".toList "Deployment/pd-worker".toList).1 :=
  fuzzy_substring_dominance "pd".toList "Deployment/pd-worker".toList "Pod/web-1".toList 11
    (by decide) (by decide) (by decide) (by decide)

end Kubeve
